import Mathlib

/-!
Verification of the urkel-tree node module
(`runtime/src/storage/mkvs/urkel/tree/node.rs`).

The embedding below mirrors the Rust source.  Shared mutable handles
(`Rc<RefCell<_>>`) are modelled by plain values; mutating methods return the
updated value together with their result.  Rust panics are modelled by
`Except UrkelPanic`.  Machine bytes are `Nat` with explicit `% 256` where the
source truncates; `u16`/`u64` quantities are `Nat` with bounds carried in
hypotheses where they matter.
-/

/-- The hash type.  The source uses a fixed 32-byte cryptographic digest; the
embedding keeps the digest abstract and injective: `Hash.digest p` stands for
the digest of the byte string `p`.  `Hash.zero` is the all-zero default value
(`Hash::default()` in the source, which differs from the digest of the empty
string). -/
inductive Hash where
  | zero : Hash
  | digest : List Nat → Hash
deriving DecidableEq, Repr

/-- Modelled from the spec: `Hash::empty_hash()` (missing from src) is the
digest of the empty byte string, a compile-time constant. -/
def Hash.empty_hash : Hash := Hash.digest []

/-- `Hash::is_empty` compares against the empty hash. -/
def Hash.is_empty (h : Hash) : Bool := h == Hash.empty_hash

/-- The byte serialization of a hash (`as_ref()` on the 32 digest bytes in the
source).  Kept abstract but injective. -/
def Hash.as_bytes : Hash → List Nat
  | Hash.zero => [0]
  | Hash.digest l => 1 :: l

/-- Modelled from the spec: `Hash::digest_bytes_list` (missing from src)
digests the concatenation of the chunks. -/
def Hash.digest_bytes_list (chunks : List (List Nat)) : Hash :=
  Hash.digest chunks.flatten

/-- Modelled from the spec: `Hash::digest_bytes` (missing from src). -/
def Hash.digest_bytes (b : List Nat) : Hash := Hash.digest b

/-- Modelled from the spec: `u64::marshal_binary` (missing from src),
8-byte big-endian encoding of the round number. -/
def marshal_u64 (x : Nat) : List Nat :=
  [x / 2 ^ 56 % 256, x / 2 ^ 48 % 256, x / 2 ^ 40 % 256, x / 2 ^ 32 % 256,
   x / 2 ^ 24 % 256, x / 2 ^ 16 % 256, x / 2 ^ 8 % 256, x % 256]

/-- Modelled from the spec: `u16::marshal_binary` (missing from src),
2-byte big-endian encoding of a `Depth`. -/
def marshal_u16 (x : Nat) : List Nat := [x / 2 ^ 8 % 256, x % 256]

/-- `NodeKind::Leaf as u8`. -/
def nodeKindLeaf : Nat := 0x00
/-- `NodeKind::Internal as u8`. -/
def nodeKindInternal : Nat := 0x01
/-- `NodeKind::None as u8` (reserved, not emitted by this core). -/
def nodeKindNone : Nat := 0x02

/-- `Key` holds a variable-length key (`Vec<u8>`). -/
abbrev Key := List Nat

/-- `Value` is a variable-length byte blob (`Vec<u8>`). -/
abbrev Value := List Nat

/-- Opaque cache slot (`CacheExtra<T>`); `Default::default()` is `none`. -/
abbrev CacheExtra := Option Nat

/-- Rust panics of the module, by panic site. -/
inductive UrkelPanic where
  | ExtractOnDirty : UrkelPanic
  | CopyLeafNonLeaf : UrkelPanic
  | CopyLeafNoNode : UrkelPanic
  | GetNodeNone : UrkelPanic
deriving DecidableEq, Repr

/-- Recoverable errors (`TreeError` in the source). -/
inductive TreeError where
  | HashMismatch (expected_hash computed_hash : Hash) : TreeError
  | DirtyPointers : TreeError
  | DirtyValue : TreeError
deriving DecidableEq, Repr

/-- `ValuePointer`: an owned optional byte blob with content hash and clean
flag. -/
structure ValuePointer where
  clean : Bool
  hash : Hash
  value : Option Value
  cache_extra : CacheExtra
deriving DecidableEq, Repr

/-- `ValuePointer::update_hash`. -/
def ValuePointer.update_hash (v : ValuePointer) : ValuePointer :=
  match v.value with
  | none => { v with hash := Hash.empty_hash }
  | some val => { v with hash := Hash.digest_bytes val }

/-- `ValuePointer::validate`: recompute the hash, then compare. -/
def ValuePointer.validate (v : ValuePointer) (hash : Hash) :
    ValuePointer × Except TreeError Unit :=
  let v' := v.update_hash
  if v'.hash ≠ hash then
    (v', Except.error (TreeError.HashMismatch hash v'.hash))
  else
    (v', Except.ok ())

/-- `ValuePointer::extract`: clean deep copy; panics on a dirty value. -/
def ValuePointer.extract (v : ValuePointer) : Except UrkelPanic ValuePointer :=
  if !v.clean then Except.error UrkelPanic.ExtractOnDirty
  else Except.ok ⟨true, v.hash, v.value, none⟩

/-- `ValuePointer::copy`: deep copy, unconditionally marked clean. -/
def ValuePointer.copy (v : ValuePointer) : ValuePointer :=
  ⟨true, v.hash, v.value, none⟩

/-- `LeafNode`: a key/value pair.  The `value` field is a `ValuePtrRef` in the
source; the handle is modelled by the pointed-to value. -/
structure LeafNode where
  clean : Bool
  round : Nat
  hash : Hash
  key : Key
  value : ValuePointer
deriving DecidableEq, Repr

mutual
/-- `NodeBox`: sum of the two node variants. -/
inductive NodeBox where
  | Internal : InternalNode → NodeBox
  | Leaf : LeafNode → NodeBox

/-- `InternalNode`: bit-label plus mid-path leaf pointer and two children. -/
inductive InternalNode where
  | mk (clean : Bool) (round : Nat) (hash : Hash) (label : Key)
      (label_bit_length : Nat) (leaf_node : NodePointer) (left : NodePointer)
      (right : NodePointer) : InternalNode

/-- `NodePointer`: a handle carrying a hash identity and an optionally
resolved node body. -/
inductive NodePointer where
  | mk (clean : Bool) (hash : Hash) (node : Option NodeBox)
      (cache_extra : CacheExtra) : NodePointer
end

def NodePointer.clean : NodePointer → Bool
  | NodePointer.mk c _ _ _ => c

def NodePointer.hash : NodePointer → Hash
  | NodePointer.mk _ h _ _ => h

def NodePointer.node : NodePointer → Option NodeBox
  | NodePointer.mk _ _ n _ => n

def NodePointer.cache_extra : NodePointer → CacheExtra
  | NodePointer.mk _ _ _ e => e

def InternalNode.clean : InternalNode → Bool
  | InternalNode.mk c _ _ _ _ _ _ _ => c

def InternalNode.round : InternalNode → Nat
  | InternalNode.mk _ r _ _ _ _ _ _ => r

def InternalNode.hash : InternalNode → Hash
  | InternalNode.mk _ _ h _ _ _ _ _ => h

def InternalNode.label : InternalNode → Key
  | InternalNode.mk _ _ _ l _ _ _ _ => l

def InternalNode.label_bit_length : InternalNode → Nat
  | InternalNode.mk _ _ _ _ n _ _ _ => n

def InternalNode.leaf_node : InternalNode → NodePointer
  | InternalNode.mk _ _ _ _ _ p _ _ => p

def InternalNode.left : InternalNode → NodePointer
  | InternalNode.mk _ _ _ _ _ _ p _ => p

def InternalNode.right : InternalNode → NodePointer
  | InternalNode.mk _ _ _ _ _ _ _ p => p

/-- `NodePointer::null_ptr`. -/
def NodePointer.null_ptr : NodePointer :=
  NodePointer.mk true Hash.empty_hash none none

/-- `NodePointer::is_null`. -/
def NodePointer.is_null (p : NodePointer) : Bool := p.hash.is_empty

/-- `NodePointer::has_node`. -/
def NodePointer.has_node (p : NodePointer) : Bool :=
  !p.is_null && !p.node.isNone

/-- `NodePointer::get_node`; panics when the body is absent. -/
def NodePointer.get_node (p : NodePointer) : Except UrkelPanic NodeBox :=
  match p.node with
  | none => Except.error UrkelPanic.GetNodeNone
  | some n => Except.ok n

/-- `NodePointer::extract`: hash-only skeleton; panics on a dirty pointer. -/
def NodePointer.extract (p : NodePointer) : Except UrkelPanic NodePointer :=
  if !p.clean then Except.error UrkelPanic.ExtractOnDirty
  else Except.ok (NodePointer.mk true p.hash none none)

/-- `LeafNode::copy`: field-wise copy; the value cell is copied through
`ValuePointer::copy`. -/
def LeafNode.copy (l : LeafNode) : LeafNode :=
  ⟨l.clean, l.round, l.hash, l.key, l.value.copy⟩

/-- `NodePointer::copy_leaf_ptr`.  The source first returns a null pointer
when `has_node()` is false, then panics on a dirty pointer, then peers into
the `NodeBox` variant (the `noderef_as!(_, Leaf)` macro panics on an
`Internal` body; the dead `else` arm of the source's `if let` is
`CopyLeafNoNode`). -/
def NodePointer.copy_leaf_ptr (p : NodePointer) : Except UrkelPanic NodePointer :=
  if !p.has_node then Except.ok NodePointer.null_ptr
  else if !p.clean then Except.error UrkelPanic.ExtractOnDirty
  else
    match p.node with
    | some (NodeBox.Leaf l) =>
        Except.ok (NodePointer.mk true p.hash (some (NodeBox.Leaf l.copy)) none)
    | some (NodeBox.Internal _) => Except.error UrkelPanic.CopyLeafNonLeaf
    | none => Except.error UrkelPanic.CopyLeafNoNode

/-- `LeafNode::update_hash`:
`digest(0x00 || marshal(round) || key || value.hash)`. -/
def leafHashPreimage (l : LeafNode) : List (List Nat) :=
  [[nodeKindLeaf], marshal_u64 l.round, l.key, l.value.hash.as_bytes]

def LeafNode.update_hash (l : LeafNode) : LeafNode :=
  { l with hash := Hash.digest_bytes_list (leafHashPreimage l) }

/-- `InternalNode::update_hash`: reads only the `hash` fields of the three
child pointers (no recursion into bodies). -/
def InternalNode.update_hash (n : InternalNode) : InternalNode :=
  InternalNode.mk n.clean n.round
    (Hash.digest_bytes_list
      [[nodeKindInternal], marshal_u64 n.round, marshal_u16 n.label_bit_length,
       n.label, n.leaf_node.hash.as_bytes, n.left.hash.as_bytes,
       n.right.hash.as_bytes])
    n.label n.label_bit_length n.leaf_node n.left n.right

/-- `LeafNode::validate`. -/
def LeafNode.validate (l : LeafNode) (h : Hash) :
    LeafNode × Except TreeError Unit :=
  if !l.value.clean then (l, Except.error TreeError.DirtyValue)
  else
    let l' := l.update_hash
    if l'.hash ≠ h then
      (l', Except.error (TreeError.HashMismatch h l'.hash))
    else (l', Except.ok ())

/-- `InternalNode::validate`. -/
def InternalNode.validate (n : InternalNode) (h : Hash) :
    InternalNode × Except TreeError Unit :=
  if !n.leaf_node.clean || !n.left.clean || !n.right.clean then
    (n, Except.error TreeError.DirtyPointers)
  else
    let n' := n.update_hash
    if n'.hash ≠ h then
      (n', Except.error (TreeError.HashMismatch h n'.hash))
    else (n', Except.ok ())

/-- `LeafNode::extract`. -/
def LeafNode.extract (l : LeafNode) : Except UrkelPanic NodeBox :=
  if !l.clean then Except.error UrkelPanic.ExtractOnDirty
  else do
    let v ← l.value.extract
    pure (NodeBox.Leaf ⟨true, l.round, l.hash, l.key, v⟩)

/-- `InternalNode::extract`. -/
def InternalNode.extract (n : InternalNode) : Except UrkelPanic NodeBox :=
  if !n.clean then Except.error UrkelPanic.ExtractOnDirty
  else do
    let lf ← n.leaf_node.copy_leaf_ptr
    let lt ← n.left.extract
    let rt ← n.right.extract
    pure (NodeBox.Internal
      (InternalNode.mk true n.round n.hash n.label n.label_bit_length lf lt rt))

/-- `LeafNode`'s `PartialEq`: clean sides compare by hash, otherwise by
round/key/value (the value through `ValuePointer`'s `PartialEq`). -/
def valuePtrEq (a b : ValuePointer) : Bool :=
  if a.clean && b.clean then a.hash == b.hash
  else !a.value.isNone && a.value == b.value

def leafNodeEq (a b : LeafNode) : Bool :=
  if a.clean && b.clean then a.hash == b.hash
  else a.round == b.round && a.key == b.key && valuePtrEq a.value b.value

mutual
/-- `NodePointer`'s `PartialEq`: clean sides compare by hash only; otherwise
the left side must have a resolved body and the bodies must be equal. -/
def nodePtrEq : NodePointer → NodePointer → Bool
  | NodePointer.mk c1 h1 n1 _, NodePointer.mk c2 h2 n2 _ =>
    if c1 && c2 then h1 == h2
    else
      match n1, n2 with
      | some b1, some b2 => nodeBoxEq b1 b2
      | _, _ => false

/-- `NodeBox`'s derived `PartialEq`. -/
def nodeBoxEq : NodeBox → NodeBox → Bool
  | NodeBox.Internal a, NodeBox.Internal b => internalNodeEq a b
  | NodeBox.Leaf a, NodeBox.Leaf b => leafNodeEq a b
  | _, _ => false

/-- `InternalNode`'s `PartialEq`: clean sides compare by hash, otherwise by
round and the three pointers (note: the label is not compared). -/
def internalNodeEq : InternalNode → InternalNode → Bool
  | InternalNode.mk c1 r1 h1 _ _ lf1 l1 rt1,
    InternalNode.mk c2 r2 h2 _ _ lf2 l2 rt2 =>
    if c1 && c2 then h1 == h2
    else r1 == r2 && nodePtrEq lf1 lf2 && nodePtrEq l1 l2 && nodePtrEq rt1 rt2
end

/-- `Depth::to_bytes`: number of bytes needed to fit the given bits. -/
def Depth.to_bytes (d : Nat) : Nat :=
  if d % 8 ≠ 0 then d / 8 + 1 else d / 8

/-- `Key::get_bit`: bit `i` is the `(i mod 8)`-th most significant bit of
byte `i / 8`.  The source indexes the buffer directly (panicking out of
bounds); the embedding reads `0` there — every use below is in bounds. -/
def Key.get_bit (k : Key) (bit : Nat) : Bool :=
  decide (k.getD (bit / 8) 0 &&& (1 <<< (7 - bit % 8)) ≠ 0)

/-- `Key::bit_length`: coarse bound `8 * len`. -/
def Key.bit_length (k : Key) : Nat := k.length * 8

/-- `Key::split`.  Returns `none` where the source panics: `split_point >
key_len`, or a prefix slice out of range.  Suffix bytes are shifted left by
`split_point % 8` and OR'd with the top bits of the following byte. -/
def Key.split (k : Key) (split_point key_len : Nat) : Option (Key × Key) :=
  if split_point > key_len then none
  else
    let prefix_len := Depth.to_bytes split_point
    let suffix_len := Depth.to_bytes (key_len - split_point)
    if k.length < prefix_len then none
    else
      let pre0 : Key := k.take prefix_len
      let pre1 : Key :=
        if split_point % 8 ≠ 0 then
          pre0.set (prefix_len - 1)
            (pre0.getD (prefix_len - 1) 0 &&& (0xff <<< (8 - split_point % 8)) % 256)
        else pre0
      let suf : Key := (List.range suffix_len).map (fun i =>
        let b1 := k.getD (i + split_point / 8) 0 <<< (split_point % 8) % 256
        if split_point % 8 ≠ 0 ∧ i + split_point / 8 + 1 ≠ k.length then
          b1 ||| k.getD (i + split_point / 8 + 1) 0 >>> (8 - split_point % 8)
        else b1)
      some (pre1, suf)

/-- OR a value into byte `idx` of a buffer (`buf[idx] |= v`).  `List.set` is a
no-op out of bounds; every use below is in bounds, where the source would
panic instead. -/
def orAt (l : Key) (idx v : Nat) : Key := l.set idx (l.getD idx 0 ||| v)

/-- The `for i in 0..k2.len()` loop of `Key::merge`: `self_len` is the byte
length of the first key's buffer, `key_len` its declared bit length, `i` the
current loop index. -/
def Key.mergeLoop (self_len key_len : Nat) : Nat → List Nat → Key → Key
  | _, [], acc => acc
  | i, b :: rest, acc =>
    let acc1 :=
      if key_len % 8 ≠ 0 ∧ 0 < self_len then
        orAt acc (self_len + i - 1) (b >>> (key_len % 8))
      else acc
    let acc2 :=
      if self_len + i < acc1.length then
        orAt acc1 (self_len + i) (b <<< ((8 - key_len % 8) % 8) % 256)
      else acc1
    Key.mergeLoop self_len key_len (i + 1) rest acc2

/-- `Key::merge`.  The result buffer has `(key_len + k2_len).to_bytes()`
bytes; the first key's bytes are copied in and the second key's bytes are
OR'd in starting at byte `self.len()` (the buffer length, not
`key_len.to_bytes()`). -/
def Key.merge (k : Key) (key_len : Nat) (k2 : Key) (k2_len : Nat) : Key :=
  let new_len := Depth.to_bytes (key_len + k2_len)
  let base : Key := k ++ List.replicate (new_len - k.length) 0
  Key.mergeLoop k.length key_len 0 k2 base

/-- `u8::leading_zeros` (Rust standard library) for a byte value. -/
def leadingZeros8 (x : Nat) : Nat :=
  if 128 ≤ x then 0 else if 64 ≤ x then 1 else if 32 ≤ x then 2
  else if 16 ≤ x then 3 else if 8 ≤ x then 4 else if 4 ≤ x then 5
  else if 2 ≤ x then 6 else if 1 ≤ x then 7 else 8

/-- The byte-wise scan of `Key::common_prefix_len`: starting at index `i`
with `fuel` indices left before `min_key_len`, return the first index with
differing bytes (or the scan bound). -/
def Key.scanEq (k k2 : Key) : Nat → Nat → Nat
  | i, 0 => i
  | i, fuel + 1 =>
    if k.getD i 0 = k2.getD i 0 then Key.scanEq k k2 (i + 1) fuel else i

/-- `Key::common_prefix_len`: byte-wise equality scan, then
`leading_zeros` of the first differing byte pair, capped at both declared
bit lengths.  The source computes `(i * 8) as Depth` — a `usize → u16` cast
that wraps, modelled by `% 65536`.  The subsequent `u16` addition of
`leading_zeros` cannot overflow: it only happens on a byte mismatch, where
the xor is non-zero, so the addend is at most 7 while `i * 8 % 65536` is a
multiple of 8 and hence at most 65528. -/
def Key.common_prefix_len (k : Key) (key_bit_len : Nat) (k2 : Key)
    (k2_bit_len : Nat) : Nat :=
  let min_key_len := if k2.length < k.length then k2.length else k.length
  let i := Key.scanEq k k2 0 min_key_len
  let bl0 := i * 8 % 65536
  let bl1 :=
    if i ≠ k.length ∧ i ≠ k2.length then
      bl0 + leadingZeros8 (k.getD i 0 ^^^ k2.getD i 0)
    else bl0
  let bl2 := if bl1 > key_bit_len then key_bit_len else bl1
  if bl2 > k2_bit_len then k2_bit_len else bl2

example : Key.split [0xF0, 0x0F] 3 16 = some ([0xE0], [0x80, 0x78]) := by decide
example : Key.merge [0xE0] 3 [0x80, 0x78] 13 = [0xF0, 0x0F] := by decide
example : Key.merge [0x00, 0x00] 1 [0x80] 8 = [0x00, 0x40] := by decide
example : Key.common_prefix_len [0xA5] 8 [0xA5, 0xFF] 16 = 8 := by decide
example : Key.common_prefix_len [0xA5] 8 [0xA4] 8 = 7 := by decide

/-! ### Spec-side hash preimages (written from the spec's words, for
comparison with the source's `update_hash`). -/

/-- The leaf preimage as the spec words it:
`0x00 || round (8B big-endian) || key_bytes || value_hash`. -/
def leafPreimageSpec (l : LeafNode) : List Nat :=
  0x00 :: (marshal_u64 l.round ++ l.key ++ l.value.hash.as_bytes)

/-- The internal preimage as the spec words it: `0x01 || round (8B
big-endian) || label_bit_length (2B big-endian) || label_bytes ||
leaf_node.hash || left.hash || right.hash`. -/
def internalPreimageSpec (n : InternalNode) : List Nat :=
  0x01 :: (marshal_u64 n.round ++ marshal_u16 n.label_bit_length ++ n.label ++
    n.leaf_node.hash.as_bytes ++ n.left.hash.as_bytes ++ n.right.hash.as_bytes)

/-- Claim C1: after `update_hash`, a leaf's hash is the digest of the spec's
leaf preimage, an internal node's hash is the digest of the spec's internal
preimage, and a null child pointer contributes `empty_hash` through its
`hash` field. -/
theorem C1_update_hash_preimage :
    (∀ l : LeafNode, (l.update_hash).hash = Hash.digest (leafPreimageSpec l))
    ∧ (∀ n : InternalNode,
        (n.update_hash).hash = Hash.digest (internalPreimageSpec n))
    ∧ (∀ p : NodePointer, p.is_null = true → p.hash = Hash.empty_hash) := by
  refine ⟨fun l => ?_, fun n => ?_, fun p hp => ?_⟩
  · simp [LeafNode.update_hash, leafHashPreimage, Hash.digest_bytes_list,
      leafPreimageSpec, nodeKindLeaf]
  · simp [InternalNode.update_hash, Hash.digest_bytes_list,
      internalPreimageSpec, nodeKindInternal, InternalNode.hash,
      List.append_assoc]
  · simpa [NodePointer.is_null, Hash.is_empty, beq_iff_eq] using hp

/-- Witness for C1 at concrete inputs: the empty leaf of spec scenario S1 and
the null pointer. -/
theorem C1_update_hash_preimage_witness :
    (LeafNode.update_hash ⟨false, 0, Hash.zero, [], ⟨true, Hash.empty_hash, none, none⟩⟩).hash
      = Hash.digest (leafPreimageSpec ⟨false, 0, Hash.zero, [], ⟨true, Hash.empty_hash, none, none⟩⟩)
    ∧ NodePointer.null_ptr.hash = Hash.empty_hash := by
  exact ⟨C1_update_hash_preimage.1 _,
    C1_update_hash_preimage.2.2 NodePointer.null_ptr (by decide)⟩

/-- Claim C10: `ValuePointer::copy` always returns a pointer marked clean
carrying the source's hash and value unchanged, even when the source is
dirty. -/
theorem C10_value_copy_clean (v : ValuePointer) :
    (v.copy).clean = true ∧ (v.copy).hash = v.hash ∧ (v.copy).value = v.value := by
  exact ⟨rfl, rfl, rfl⟩

/-- Claim C5: `InternalNode::validate` returns `DirtyPointers` iff one of the
three child pointers is dirty; otherwise it recomputes the hash (the state
becomes `update_hash`'s result, which reads only the child pointers' `hash`
fields, no recursion), returns `HashMismatch` iff the recomputed hash differs
from the expected one, and succeeds otherwise. -/
theorem C5_internal_validate_characterization (n : InternalNode) (h : Hash) :
    ((n.validate h).2 = Except.error TreeError.DirtyPointers ↔
      (n.leaf_node.clean = false ∨ n.left.clean = false ∨ n.right.clean = false))
    ∧ (n.leaf_node.clean = true → n.left.clean = true → n.right.clean = true →
        (n.validate h).1 = n.update_hash
        ∧ ((n.validate h).2 =
            Except.error (TreeError.HashMismatch h (n.update_hash).hash) ↔
            (n.update_hash).hash ≠ h)
        ∧ ((n.validate h).2 = Except.ok () ↔ (n.update_hash).hash = h)) := by
  unfold InternalNode.validate
  by_cases hd : (!n.leaf_node.clean || !n.left.clean || !n.right.clean) = true
  · rw [if_pos hd]
    simp only [Bool.or_eq_true, Bool.not_eq_true'] at hd
    constructor
    · exact iff_of_true rfl (by tauto)
    · intro h1 h2 h3
      rcases hd with (hd | hd) | hd
      · exact Bool.noConfusion (h1.symm.trans hd)
      · exact Bool.noConfusion (h2.symm.trans hd)
      · exact Bool.noConfusion (h3.symm.trans hd)
  · rw [if_neg hd]
    simp only [Bool.or_eq_true, Bool.not_eq_true', not_or, Bool.not_eq_false] at hd
    obtain ⟨⟨hc1, hc2⟩, hc3⟩ := hd
    by_cases hm : (n.update_hash).hash ≠ h
    · rw [if_pos hm]
      refine ⟨by simp [hc1, hc2, hc3], fun _ _ _ => ⟨rfl, by simp [hm], by simp [hm]⟩⟩
    · rw [if_neg hm]
      push_neg at hm
      refine ⟨by simp [hc1, hc2, hc3], fun _ _ _ => ⟨rfl, by simp [hm], by simp [hm]⟩⟩

/-- Witness for C5 at concrete inputs: a node with a dirty left child yields
`DirtyPointers`, and a clean-children node validated against its recomputed
hash succeeds. -/
theorem C5_internal_validate_characterization_witness :
    ((InternalNode.mk true 0 Hash.zero [] 0 NodePointer.null_ptr
        (NodePointer.mk false Hash.zero none none) NodePointer.null_ptr).validate
        Hash.zero).2 = Except.error TreeError.DirtyPointers
    ∧ (((InternalNode.mk true 0 Hash.zero [] 0 NodePointer.null_ptr
        NodePointer.null_ptr NodePointer.null_ptr).validate
        ((InternalNode.update_hash (InternalNode.mk true 0 Hash.zero [] 0
          NodePointer.null_ptr NodePointer.null_ptr NodePointer.null_ptr)).hash)).2
        = Except.ok ()) := by
  constructor
  · exact (C5_internal_validate_characterization _ _).1.mpr (by decide)
  · exact ((C5_internal_validate_characterization _ _).2 (by decide) (by decide)
      (by decide)).2.2.mpr rfl

/-- Claim C9: whenever a `validate` reaches the hash comparison (no
`DirtyPointers`/`DirtyValue` early return), the stored `hash` field is
overwritten with the freshly recomputed hash — also when `HashMismatch` is
then returned — and no other field (in particular not `clean`) is modified;
on an early error the entity is returned unchanged. -/
theorem C9_validate_frame :
    (∀ (v : ValuePointer) (h : Hash),
      (v.validate h).1.hash = (v.update_hash).hash
      ∧ (v.validate h).1.clean = v.clean
      ∧ (v.validate h).1.value = v.value
      ∧ (v.validate h).1.cache_extra = v.cache_extra)
    ∧ (∀ (l : LeafNode) (h : Hash),
      (l.value.clean = false → (l.validate h).1 = l)
      ∧ (l.value.clean = true →
          (l.validate h).1.hash = (l.update_hash).hash
          ∧ (l.validate h).1.clean = l.clean
          ∧ (l.validate h).1.round = l.round
          ∧ (l.validate h).1.key = l.key
          ∧ (l.validate h).1.value = l.value))
    ∧ (∀ (n : InternalNode) (h : Hash),
      ((n.leaf_node.clean = false ∨ n.left.clean = false ∨ n.right.clean = false) →
          (n.validate h).1 = n)
      ∧ (n.leaf_node.clean = true → n.left.clean = true → n.right.clean = true →
          (n.validate h).1.hash = (n.update_hash).hash
          ∧ (n.validate h).1.clean = n.clean
          ∧ (n.validate h).1.round = n.round
          ∧ (n.validate h).1.label = n.label
          ∧ (n.validate h).1.label_bit_length = n.label_bit_length
          ∧ (n.validate h).1.leaf_node = n.leaf_node
          ∧ (n.validate h).1.left = n.left
          ∧ (n.validate h).1.right = n.right)) := by
  refine ⟨fun v h => ?_, fun l h => ⟨fun hv => ?_, fun hv => ?_⟩,
    fun n h => ⟨fun hd => ?_, fun h1 h2 h3 => ?_⟩⟩
  · unfold ValuePointer.validate
    dsimp only
    split <;>
      exact ⟨rfl, by cases v <;> simp [ValuePointer.update_hash] <;> split <;> rfl,
        by cases v <;> simp [ValuePointer.update_hash] <;> split <;> rfl,
        by cases v <;> simp [ValuePointer.update_hash] <;> split <;> rfl⟩
  · unfold LeafNode.validate
    rw [if_pos (by simp [hv])]
  · unfold LeafNode.validate
    rw [if_neg (by simp [hv])]
    dsimp only
    split <;> exact ⟨rfl, rfl, rfl, rfl, rfl⟩
  · unfold InternalNode.validate
    rw [if_pos ?_]
    · rcases hd with hd | hd | hd <;> simp [hd]
  · unfold InternalNode.validate
    rw [if_neg (by simp [h1, h2, h3])]
    dsimp only
    split <;>
      exact ⟨rfl, by simp [InternalNode.update_hash, InternalNode.clean],
        by simp [InternalNode.update_hash, InternalNode.round],
        by simp [InternalNode.update_hash, InternalNode.label],
        by simp [InternalNode.update_hash, InternalNode.label_bit_length],
        by simp [InternalNode.update_hash, InternalNode.leaf_node],
        by simp [InternalNode.update_hash, InternalNode.left],
        by simp [InternalNode.update_hash, InternalNode.right]⟩

/-- Witness for C9 at a concrete input: a dirty value cell whose stored hash
is stale; `validate` against the stale hash returns `HashMismatch`, yet the
hash field has been overwritten with the recomputed digest and the `clean`
flag is untouched. -/
theorem C9_validate_frame_witness :
    ((ValuePointer.validate ⟨false, Hash.zero, some [1], none⟩ Hash.zero).1.hash
      = (ValuePointer.update_hash ⟨false, Hash.zero, some [1], none⟩).hash)
    ∧ ((ValuePointer.validate ⟨false, Hash.zero, some [1], none⟩ Hash.zero).1.clean
      = false)
    ∧ ((ValuePointer.validate ⟨false, Hash.zero, some [1], none⟩ Hash.zero).2
      = Except.error (TreeError.HashMismatch Hash.zero (Hash.digest [1])))
    ∧ ((LeafNode.validate ⟨true, 0, Hash.zero, [],
        ⟨false, Hash.zero, none, none⟩⟩ Hash.zero).1
      = ⟨true, 0, Hash.zero, [], ⟨false, Hash.zero, none, none⟩⟩) := by
  refine ⟨(C9_validate_frame.1 _ _).1, (C9_validate_frame.1 _ _).2.1, rfl,
    (C9_validate_frame.2.1 _ _).1 (by decide)⟩

/-- Counterexample to claim C4 as stated: a dirty pointer (`clean = false`)
without a resolved node does not fail `ExtractOnDirty` — the source checks
`has_node()` first and returns a null pointer; likewise a clean pointer whose
hash is the empty hash returns a null pointer even when it holds a resolved
`Leaf` body. -/
theorem C4_copy_leaf_ptr_counterexample :
    (NodePointer.mk false Hash.empty_hash none none).clean = false
    ∧ NodePointer.copy_leaf_ptr (NodePointer.mk false Hash.empty_hash none none)
      = Except.ok NodePointer.null_ptr
    ∧ NodePointer.copy_leaf_ptr (NodePointer.mk true Hash.empty_hash
        (some (NodeBox.Leaf ⟨true, 0, Hash.empty_hash, [],
          ⟨true, Hash.empty_hash, none, none⟩⟩)) none)
      = Except.ok NodePointer.null_ptr := by
  exact ⟨rfl, rfl, rfl⟩

/-- Claim C4 (amended): `copy_leaf_ptr` first checks `has_node()` — any
pointer without a resolved node, or with the empty hash, returns a null
pointer regardless of cleanliness; a dirty pointer that does have
`has_node()` fails as the programmer error `ExtractOnDirty`; a clean pointer
with `has_node()` and a resolved `Leaf` body returns a fresh clean pointer
holding a deep copy of that leaf. -/
theorem C4_copy_leaf_ptr_amended (p : NodePointer) :
    (p.has_node = false → p.copy_leaf_ptr = Except.ok NodePointer.null_ptr)
    ∧ (p.has_node = true → p.clean = false →
        p.copy_leaf_ptr = Except.error UrkelPanic.ExtractOnDirty)
    ∧ (∀ l : LeafNode, p.has_node = true → p.clean = true →
        p.node = some (NodeBox.Leaf l) →
        p.copy_leaf_ptr =
          Except.ok (NodePointer.mk true p.hash (some (NodeBox.Leaf l.copy)) none)) := by
  refine ⟨fun hn => ?_, fun hn hc => ?_, fun l hn hc hnode => ?_⟩
  · unfold NodePointer.copy_leaf_ptr
    rw [if_pos (by simp [hn])]
  · unfold NodePointer.copy_leaf_ptr
    rw [if_neg (by simp [hn]), if_pos (by simp [hc])]
  · unfold NodePointer.copy_leaf_ptr
    rw [if_neg (by simp [hn]), if_neg (by simp [hc])]
    rw [hnode]

/-- Witness for the amended C4 at concrete inputs: a dirty resolved pointer
with a non-empty hash panics `ExtractOnDirty`, and a clean resolved leaf
pointer yields the deep copy. -/
theorem C4_copy_leaf_ptr_amended_witness :
    NodePointer.copy_leaf_ptr (NodePointer.mk false (Hash.digest [1])
      (some (NodeBox.Leaf ⟨true, 0, Hash.digest [1], [],
        ⟨true, Hash.empty_hash, none, none⟩⟩)) none)
      = Except.error UrkelPanic.ExtractOnDirty
    ∧ NodePointer.copy_leaf_ptr (NodePointer.mk true (Hash.digest [1])
      (some (NodeBox.Leaf ⟨true, 0, Hash.digest [1], [],
        ⟨false, Hash.empty_hash, some [2], none⟩⟩)) none)
      = Except.ok (NodePointer.mk true (Hash.digest [1])
        (some (NodeBox.Leaf ⟨true, 0, Hash.digest [1], [],
          ⟨true, Hash.empty_hash, some [2], none⟩⟩)) none) := by
  constructor
  · exact (C4_copy_leaf_ptr_amended (NodePointer.mk false (Hash.digest [1])
      (some (NodeBox.Leaf ⟨true, 0, Hash.digest [1], [],
        ⟨true, Hash.empty_hash, none, none⟩⟩)) none)).2.1 (by decide) rfl
  · exact (C4_copy_leaf_ptr_amended (NodePointer.mk true (Hash.digest [1])
      (some (NodeBox.Leaf ⟨true, 0, Hash.digest [1], [],
        ⟨false, Hash.empty_hash, some [2], none⟩⟩)) none)).2.2
      ⟨true, 0, Hash.digest [1], [], ⟨false, Hash.empty_hash, some [2], none⟩⟩
      (by decide) rfl rfl

/-- Counterexample to claim C3 as stated: a clean resolved pointer does
compare equal to a dirty pointer with the same resolved content — when not
both sides are clean, the source compares the resolved bodies, regardless of
which side is dirty. -/
theorem C3_pointer_eq_counterexample :
    (NodePointer.mk true (Hash.digest [7])
      (some (NodeBox.Leaf ⟨true, 0, Hash.digest [7], [1],
        ⟨true, Hash.digest [2], some [2], none⟩⟩)) none).clean = true
    ∧ (NodePointer.mk false (Hash.digest [7])
      (some (NodeBox.Leaf ⟨true, 0, Hash.digest [7], [1],
        ⟨true, Hash.digest [2], some [2], none⟩⟩)) none).clean = false
    ∧ (NodePointer.mk true (Hash.digest [7])
      (some (NodeBox.Leaf ⟨true, 0, Hash.digest [7], [1],
        ⟨true, Hash.digest [2], some [2], none⟩⟩)) none).node
      = (NodePointer.mk false (Hash.digest [7])
      (some (NodeBox.Leaf ⟨true, 0, Hash.digest [7], [1],
        ⟨true, Hash.digest [2], some [2], none⟩⟩)) none).node
    ∧ nodePtrEq
        (NodePointer.mk true (Hash.digest [7])
          (some (NodeBox.Leaf ⟨true, 0, Hash.digest [7], [1],
            ⟨true, Hash.digest [2], some [2], none⟩⟩)) none)
        (NodePointer.mk false (Hash.digest [7])
          (some (NodeBox.Leaf ⟨true, 0, Hash.digest [7], [1],
            ⟨true, Hash.digest [2], some [2], none⟩⟩)) none) = true := by
  exact ⟨rfl, rfl, rfl, rfl⟩

/-- Claim C3 (amended): two clean pointers compare equal iff their hashes
are equal; when at least one side is dirty, equality holds exactly when both
bodies are resolved and equal — so a dirty pointer is never equal to an
unresolved (or null) one, but a clean resolved pointer does compare equal to
a dirty pointer with an equal resolved body. -/
theorem C3_pointer_eq_amended (p q : NodePointer) :
    (p.clean = true → q.clean = true → (nodePtrEq p q = true ↔ p.hash = q.hash))
    ∧ ((p.clean = false ∨ q.clean = false) → (p.node = none ∨ q.node = none) →
        nodePtrEq p q = false)
    ∧ (∀ b1 b2 : NodeBox, (p.clean = false ∨ q.clean = false) →
        p.node = some b1 → q.node = some b2 →
        nodePtrEq p q = nodeBoxEq b1 b2) := by
  obtain ⟨c1, h1, n1, e1⟩ := p
  obtain ⟨c2, h2, n2, e2⟩ := q
  refine ⟨fun hc1 hc2 => ?_, fun hc hn => ?_, fun b1 b2 hc hn1 hn2 => ?_⟩
  · cases hc1; cases hc2
    simp [nodePtrEq, NodePointer.hash, beq_iff_eq]
  · rcases hn with hn | hn <;> cases hn <;> rcases hc with hc | hc <;> cases hc
    · cases n2 <;> rfl
    · cases c1 <;> cases n2 <;> rfl
    · cases n1 <;> rfl
    · cases c1 <;> cases n1 <;> rfl
  · cases hn1; cases hn2
    rcases hc with hc | hc <;> cases hc
    · rfl
    · cases c1 <;> rfl

/-- Witness for the amended C3 at concrete inputs: two clean pointers with
the same hash but different bodies compare equal, and a dirty resolved
pointer is not equal to an unresolved one. -/
theorem C3_pointer_eq_amended_witness :
    nodePtrEq (NodePointer.mk true (Hash.digest [3]) none none)
      (NodePointer.mk true (Hash.digest [3])
        (some (NodeBox.Leaf ⟨true, 0, Hash.digest [3], [],
          ⟨true, Hash.empty_hash, none, none⟩⟩)) none) = true
    ∧ nodePtrEq
        (NodePointer.mk false (Hash.digest [3])
          (some (NodeBox.Leaf ⟨true, 0, Hash.digest [3], [],
            ⟨true, Hash.empty_hash, none, none⟩⟩)) none)
        (NodePointer.mk true (Hash.digest [3]) none none) = false := by
  constructor
  · exact (C3_pointer_eq_amended (NodePointer.mk true (Hash.digest [3]) none none)
      (NodePointer.mk true (Hash.digest [3])
        (some (NodeBox.Leaf ⟨true, 0, Hash.digest [3], [],
          ⟨true, Hash.empty_hash, none, none⟩⟩)) none)).1 rfl rfl |>.mpr rfl
  · exact (C3_pointer_eq_amended
      (NodePointer.mk false (Hash.digest [3])
        (some (NodeBox.Leaf ⟨true, 0, Hash.digest [3], [],
          ⟨true, Hash.empty_hash, none, none⟩⟩)) none)
      (NodePointer.mk true (Hash.digest [3]) none none)).2.1 (Or.inl rfl) (Or.inr rfl)

/-- A leaf whose value cell is clean and whose stored hash equals its
recomputed hash validates against its own hash. -/
theorem leaf_validate_ok (l : LeafNode) (h1 : l.value.clean = true)
    (h2 : (l.update_hash).hash = l.hash) :
    (l.validate l.hash).2 = Except.ok () := by
  unfold LeafNode.validate
  rw [if_neg (by simp [h1])]
  dsimp only
  rw [if_neg (by simp [h2])]

/-- An internal node whose child pointers are clean and whose stored hash
equals its recomputed hash validates against its own hash. -/
theorem internal_validate_ok (n : InternalNode) (h1 : n.leaf_node.clean = true)
    (h2 : n.left.clean = true) (h3 : n.right.clean = true)
    (hh : (n.update_hash).hash = n.hash) :
    (n.validate n.hash).2 = Except.ok () := by
  unfold InternalNode.validate
  rw [if_neg (by simp [h1, h2, h3])]
  dsimp only
  rw [if_neg (by simp [hh])]

/-- A clean internal node satisfying the claim's hypotheses (stored hash
equals the recomputed preimage hash, all child pointers clean) whose
`leaf_node` pointer is non-null but unresolved. -/
def c2Node : InternalNode :=
  (InternalNode.mk true 0 Hash.zero [] 0
    (NodePointer.mk true (Hash.digest [9]) none none)
    NodePointer.null_ptr NodePointer.null_ptr).update_hash

/-- What `extract` produces on `c2Node`: `copy_leaf_ptr` turns the
unresolved `leaf_node` pointer into a null pointer, losing its hash. -/
def c2NodeExt : InternalNode :=
  InternalNode.mk true 0 c2Node.hash [] 0 NodePointer.null_ptr
    (NodePointer.mk true Hash.empty_hash none none)
    (NodePointer.mk true Hash.empty_hash none none)

/-- Counterexample to claim C2 as stated: `c2Node` is clean, satisfies
global invariant 1, has clean child pointers (and itself validates), yet the
node produced by `extract` fails `validate` against its own hash with
`HashMismatch`, because `copy_leaf_ptr` replaces the non-null unresolved
`leaf_node` pointer by a null pointer whose hash is `empty_hash`. -/
theorem C2_extract_validate_counterexample :
    c2Node.clean = true
    ∧ c2Node.hash = (c2Node.update_hash).hash
    ∧ c2Node.leaf_node.clean = true
    ∧ c2Node.left.clean = true
    ∧ c2Node.right.clean = true
    ∧ (c2Node.validate c2Node.hash).2 = Except.ok ()
    ∧ c2Node.extract = Except.ok (NodeBox.Internal c2NodeExt)
    ∧ (c2NodeExt.validate c2NodeExt.hash).2
        = Except.error (TreeError.HashMismatch c2NodeExt.hash
            ((c2NodeExt.update_hash).hash)) := by
  exact ⟨rfl, rfl, rfl, rfl, rfl, rfl, rfl, rfl⟩

/-- Claim C2 (amended): for a clean leaf (clean value cell, stored hash
equal to the recomputed hash) and a clean internal node satisfying global
invariant 1 whose child pointers are clean and whose `leaf_node` pointer is
null when unresolved and resolves to a leaf satisfying the same invariants
otherwise, `extract` succeeds, every node it produces is clean, carries the
original hash, and `validate` against its own hash succeeds. -/
theorem C2_extract_validate_amended (l : LeafNode) (n : InternalNode)
    (hl1 : l.clean = true) (hl2 : l.value.clean = true)
    (hl3 : l.hash = (l.update_hash).hash)
    (hn1 : n.clean = true) (hn2 : n.hash = (n.update_hash).hash)
    (hc1 : n.leaf_node.clean = true) (hc2 : n.left.clean = true)
    (hc3 : n.right.clean = true)
    (hleafnull : n.leaf_node.node = none → n.leaf_node.hash = Hash.empty_hash)
    (hleafvariant : ∀ b, n.leaf_node.node = some b →
      ∃ lf, b = NodeBox.Leaf lf ∧ lf.clean = true ∧ lf.value.clean = true
        ∧ lf.hash = (lf.update_hash).hash) :
    (∃ l', l.extract = Except.ok (NodeBox.Leaf l') ∧ l'.clean = true
      ∧ l'.hash = l.hash ∧ (l'.validate l'.hash).2 = Except.ok ())
    ∧ (∃ n', n.extract = Except.ok (NodeBox.Internal n') ∧ n'.clean = true
      ∧ n'.hash = n.hash ∧ (n'.validate n'.hash).2 = Except.ok ()
      ∧ (∀ lf', n'.leaf_node.node = some (NodeBox.Leaf lf') →
          lf'.clean = true ∧ lf'.hash = lf'.hash
          ∧ (lf'.validate lf'.hash).2 = Except.ok ())) := by
  constructor
  · refine ⟨⟨true, l.round, l.hash, l.key, ⟨true, l.value.hash, l.value.value, none⟩⟩,
      ?_, rfl, rfl, ?_⟩
    · unfold LeafNode.extract
      rw [if_neg (by simp [hl1])]
      unfold ValuePointer.extract
      rw [if_neg (by simp [hl2])]
      rfl
    · exact leaf_validate_ok _ rfl (by exact hl3.symm)
  · have hLext : n.left.extract
        = Except.ok (NodePointer.mk true n.left.hash none none) := by
      unfold NodePointer.extract
      rw [if_neg (by simp [hc2])]
    have hRext : n.right.extract
        = Except.ok (NodePointer.mk true n.right.hash none none) := by
      unfold NodePointer.extract
      rw [if_neg (by simp [hc3])]
    have hleaf : ∃ q : NodePointer,
        n.leaf_node.copy_leaf_ptr = Except.ok q
        ∧ q.clean = true ∧ q.hash = n.leaf_node.hash
        ∧ (∀ lf', q.node = some (NodeBox.Leaf lf') →
            lf'.clean = true ∧ lf'.value.clean = true
            ∧ lf'.hash = (lf'.update_hash).hash) := by
      cases hnode : n.leaf_node.node with
      | none =>
        refine ⟨NodePointer.null_ptr, ?_, rfl, ?_, ?_⟩
        · unfold NodePointer.copy_leaf_ptr
          rw [if_pos (by simp [NodePointer.has_node, hnode])]
        · rw [hleafnull hnode]; rfl
        · intro lf' hq
          exact absurd hq (by simp [NodePointer.null_ptr, NodePointer.node])
      | some b =>
        obtain ⟨lf, rfl, hlfc, hlfv, hlfh⟩ := hleafvariant b hnode
        by_cases hnull : n.leaf_node.hash = Hash.empty_hash
        · refine ⟨NodePointer.null_ptr, ?_, rfl, by rw [hnull]; rfl, ?_⟩
          · unfold NodePointer.copy_leaf_ptr
            rw [if_pos (by
              simp [NodePointer.has_node, NodePointer.is_null, Hash.is_empty,
                hnull])]
          · intro lf' hq
            exact absurd hq (by simp [NodePointer.null_ptr, NodePointer.node])
        · refine ⟨NodePointer.mk true n.leaf_node.hash
            (some (NodeBox.Leaf lf.copy)) none, ?_, rfl, rfl, ?_⟩
          · unfold NodePointer.copy_leaf_ptr
            rw [if_neg (by
                simp [NodePointer.has_node, NodePointer.is_null, Hash.is_empty,
                  hnode, hnull]),
              if_neg (by simp [hc1])]
            rw [hnode]
          · intro lf' hq
            have hlf' : lf' = lf.copy := by
              simpa [NodePointer.node] using hq.symm
            subst hlf'
            refine ⟨by simp [LeafNode.copy, hlfc], by simp [LeafNode.copy, ValuePointer.copy], ?_⟩
            show lf.hash = _
            rw [hlfh]
            rfl
    obtain ⟨q, hq1, hq2, hq3, hq4⟩ := hleaf
    refine ⟨InternalNode.mk true n.round n.hash n.label n.label_bit_length q
      (NodePointer.mk true n.left.hash none none)
      (NodePointer.mk true n.right.hash none none), ?_, rfl, rfl, ?_, ?_⟩
    · unfold InternalNode.extract
      rw [if_neg (by simp [hn1])]
      rw [hq1, hLext, hRext]
      rfl
    · refine internal_validate_ok _ (by simpa [InternalNode.leaf_node] using hq2)
        rfl rfl ?_
      show Hash.digest_bytes_list
        ([[nodeKindInternal], marshal_u64 n.round, marshal_u16 n.label_bit_length,
          n.label, q.hash.as_bytes, n.left.hash.as_bytes, n.right.hash.as_bytes])
        = n.hash
      rw [hq3, hn2]
      rfl
    · intro lf' hq
      obtain ⟨ha, hb, hcc⟩ := hq4 lf' hq
      exact ⟨ha, rfl, leaf_validate_ok _ hb hcc.symm⟩

/-- A concrete clean leaf satisfying the hypotheses of the amended C2. -/
def c2wLeaf : LeafNode :=
  (LeafNode.mk true 7 Hash.zero [0xA5]
    ⟨true, Hash.digest [1, 2], some [1, 2], none⟩).update_hash

/-- A concrete clean internal node whose `leaf_node` pointer resolves to
`c2wLeaf`, satisfying the hypotheses of the amended C2. -/
def c2wNode : InternalNode :=
  (InternalNode.mk true 7 Hash.zero [0x80] 1
    (NodePointer.mk true (Hash.digest [5]) (some (NodeBox.Leaf c2wLeaf)) none)
    NodePointer.null_ptr NodePointer.null_ptr).update_hash

/-- Witness for the amended C2 at the concrete inputs `c2wLeaf`/`c2wNode`. -/
theorem C2_extract_validate_amended_witness :
    (∃ l', c2wLeaf.extract = Except.ok (NodeBox.Leaf l') ∧ l'.clean = true
      ∧ l'.hash = c2wLeaf.hash ∧ (l'.validate l'.hash).2 = Except.ok ())
    ∧ (∃ n', c2wNode.extract = Except.ok (NodeBox.Internal n') ∧ n'.clean = true
      ∧ n'.hash = c2wNode.hash ∧ (n'.validate n'.hash).2 = Except.ok ()
      ∧ (∀ lf', n'.leaf_node.node = some (NodeBox.Leaf lf') →
          lf'.clean = true ∧ lf'.hash = lf'.hash
          ∧ (lf'.validate lf'.hash).2 = Except.ok ())) :=
  C2_extract_validate_amended c2wLeaf c2wNode rfl rfl rfl rfl rfl rfl rfl rfl
    (fun h => Option.noConfusion h)
    (fun _ hb => ⟨c2wLeaf, (Option.some.inj hb).symm, rfl, rfl, rfl⟩)

/-! ### Arithmetic and bit-level helper lemmas for the key algebra. -/

theorem to_bytes_le (d L : Nat) : Depth.to_bytes d ≤ L ↔ d ≤ 8 * L := by
  unfold Depth.to_bytes
  split <;> omega

theorem lt_to_bytes (j d : Nat) : j < Depth.to_bytes d ↔ 8 * j < d := by
  unfold Depth.to_bytes
  split <;> omega

theorem to_bytes_mono {d e : Nat} (h : d ≤ e) :
    Depth.to_bytes d ≤ Depth.to_bytes e := by
  unfold Depth.to_bytes
  split <;> split <;> omega

theorem byte_and_pow (b s : Nat) :
    b &&& (1 <<< s) = if b.testBit s then 2 ^ s else 0 := by
  apply Nat.eq_of_testBit_eq
  intro j
  have h1 : (1 : Nat) <<< s = 2 ^ s := by rw [Nat.shiftLeft_eq, one_mul]
  rw [Nat.testBit_and, h1]
  by_cases hj : s = j
  · subst hj
    cases hb : b.testBit s <;>
      simp [hb, Nat.testBit_two_pow_self, Nat.zero_testBit]
  · cases hb : b.testBit s <;>
      simp [hb, Nat.testBit_two_pow_of_ne hj, Nat.zero_testBit]

/-- `get_bit` reads the `(i mod 8)`-th most significant bit of byte
`i / 8`. -/
theorem get_bit_testBit (k : Key) (i : Nat) :
    Key.get_bit k i = (k.getD (i / 8) 0).testBit (7 - i % 8) := by
  unfold Key.get_bit
  rw [byte_and_pow]
  by_cases h : (k.getD (i / 8) 0).testBit (7 - i % 8) <;>
    simp [h, (Nat.pos_pow_of_pos (7 - i % 8) (show 0 < 2 by omega)).ne']

theorem testBit_ge_eight {x j : Nat} (hx : x < 256) (hj : 8 ≤ j) :
    x.testBit j = false := by
  refine Nat.testBit_lt_two_pow (lt_of_lt_of_le hx ?_)
  calc (256 : Nat) = 2 ^ 8 := by norm_num
  _ ≤ 2 ^ j := Nat.pow_le_pow_right (by omega) hj

theorem lt_two_pow_of_testBit_high (x n : Nat)
    (hx : ∀ j, n ≤ j → x.testBit j = false) : x < 2 ^ n := by
  have hxx : x = x % 2 ^ n := by
    apply Nat.eq_of_testBit_eq
    intro j
    rw [Nat.testBit_mod_two_pow]
    by_cases hj : j < n
    · simp [hj]
    · simp [hj, hx j (le_of_not_lt hj)]
  rw [hxx]
  exact Nat.mod_lt _ (Nat.pos_pow_of_pos _ (by omega))

theorem byte_eq_of_testBit_lt8 (a b : Nat) (ha : a < 256) (hb : b < 256)
    (h : ∀ j, j < 8 → a.testBit j = b.testBit j) : a = b := by
  apply Nat.eq_of_testBit_eq
  intro j
  by_cases hj : j < 8
  · exact h j hj
  · rw [testBit_ge_eight ha (by omega), testBit_ge_eight hb (by omega)]

theorem getD_lt_256 (k : Key) (hb : ∀ x ∈ k, x < 256) (idx : Nat) :
    k.getD idx 0 < 256 := by
  rcases h : k[idx]? with _ | v
  · simp [List.getD, h]
  · have hv : v ∈ k := List.getElem?_mem h
    simpa [List.getD, h] using hb v hv

theorem range_map_getD (L j : Nat) (f : Nat → Nat) (h : j < L) :
    ((List.range L).map f).getD j 0 = f j := by
  rw [List.getD_eq_getElem?_getD]
  simp [List.getElem?_map, List.getElem?_range, h]

theorem take_getD (k : Key) (t j : Nat) (h : j < t) (ht : t ≤ k.length) :
    (k.take t).getD j 0 = k.getD j 0 := by
  rw [List.getD_eq_getElem?_getD, List.getD_eq_getElem?_getD,
    List.getElem?_take]
  simp [h]

theorem set_getD_same (k : Key) (t j v : Nat) (hj : t = j) (h : j < k.length) :
    (k.set t v).getD j 0 = v := by
  subst hj
  rw [List.getD_eq_getElem?_getD, List.getElem?_set_self (by omega)]
  rfl

theorem set_getD_other (k : Key) (t j v : Nat) (hj : t ≠ j) :
    (k.set t v).getD j 0 = k.getD j 0 := by
  rw [List.getD_eq_getElem?_getD, List.getD_eq_getElem?_getD,
    List.getElem?_set_ne hj]

theorem orAt_length (l : Key) (idx v : Nat) : (orAt l idx v).length = l.length := by
  unfold orAt
  exact List.length_set l idx _

theorem orAt_getD (l : Key) (t j v : Nat) :
    (orAt l t v).getD j 0 =
      if t = j ∧ j < l.length then l.getD j 0 ||| v else l.getD j 0 := by
  unfold orAt
  by_cases ht : t = j
  · subst ht
    by_cases hl : t < l.length
    · rw [set_getD_same _ _ _ _ rfl hl]
      simp [hl]
    · rw [List.getD_eq_getElem?_getD, List.set_eq_of_length_le (by omega),
        ← List.getD_eq_getElem?_getD]
      simp [hl]
  · rw [set_getD_other _ _ _ _ ht]
    simp [ht]

theorem mergeLoop_length (sl kl : Nat) (l : List Nat) (i : Nat) (acc : Key) :
    (Key.mergeLoop sl kl i l acc).length = acc.length := by
  induction l generalizing i acc with
  | nil => rfl
  | cons b rest ih =>
    unfold Key.mergeLoop
    dsimp only
    rw [ih]
    split <;> split <;> simp [orAt_length]

theorem mergeLoop_getD (sl kl : Nat) (l : List Nat) (i : Nat) (acc : Key)
    (idx : Nat) (hidx : idx < acc.length) :
    (Key.mergeLoop sl kl i l acc).getD idx 0 =
      acc.getD idx 0
      ||| (if kl % 8 ≠ 0 ∧ 0 < sl ∧ sl + i ≤ idx + 1 ∧ idx + 1 < sl + i + l.length
           then l.getD (idx + 1 - sl - i) 0 >>> (kl % 8) else 0)
      ||| (if sl + i ≤ idx ∧ idx < sl + i + l.length
           then l.getD (idx - sl - i) 0 <<< ((8 - kl % 8) % 8) % 256 else 0) := by
  induction l generalizing i acc with
  | nil => simp [Key.mergeLoop]
  | cons b rest ih =>
    unfold Key.mergeLoop
    dsimp only
    set acc1 := if kl % 8 ≠ 0 ∧ 0 < sl then orAt acc (sl + i - 1) (b >>> (kl % 8)) else acc with hacc1
    set acc2 := if sl + i < acc1.length then orAt acc1 (sl + i) (b <<< ((8 - kl % 8) % 8) % 256) else acc1 with hacc2
    have hlen1 : acc1.length = acc.length := by
      rw [hacc1]; split <;> simp [orAt_length]
    have hlen2 : acc2.length = acc.length := by
      rw [hacc2]; split <;> simp [orAt_length, hlen1]
    have hidx2 : idx < acc2.length := by omega
    rw [ih (i + 1) acc2 hidx2]
    have hacc1v : acc1.getD idx 0 =
        acc.getD idx 0
        ||| (if kl % 8 ≠ 0 ∧ 0 < sl ∧ sl + i = idx + 1 then b >>> (kl % 8) else 0) := by
      rw [hacc1]
      by_cases hc : kl % 8 ≠ 0 ∧ 0 < sl
      · rw [if_pos hc, orAt_getD]
        by_cases he : sl + i - 1 = idx
        · rw [if_pos ⟨he, hidx⟩, if_pos ⟨hc.1, hc.2, by omega⟩]
        · rw [if_neg (by tauto), if_neg (by
            rintro ⟨_, hsl, hh⟩
            exact he (by omega))]
          simp
      · rw [if_neg hc, if_neg (by tauto)]
        simp
    have hacc2v : acc2.getD idx 0 =
        acc1.getD idx 0
        ||| (if sl + i = idx then b <<< ((8 - kl % 8) % 8) % 256 else 0) := by
      rw [hacc2]
      by_cases hc : sl + i < acc1.length
      · rw [if_pos hc, orAt_getD]
        by_cases he : sl + i = idx
        · rw [if_pos ⟨he, by omega⟩, if_pos he]
        · rw [if_neg (by tauto), if_neg he]
          simp
      · rw [if_neg hc]
        rw [if_neg (by omega)]
        simp
    rw [hacc2v, hacc1v]
    simp only [List.length_cons]
    rcases Nat.lt_trichotomy (idx + 1) (sl + i) with hA | hB | hC
    · rw [if_neg (show ¬(kl % 8 ≠ 0 ∧ 0 < sl ∧ sl + i = idx + 1) by omega),
        if_neg (show ¬(sl + i = idx) by omega),
        if_neg (show ¬(kl % 8 ≠ 0 ∧ 0 < sl ∧ sl + (i + 1) ≤ idx + 1
          ∧ idx + 1 < sl + (i + 1) + rest.length) by omega),
        if_neg (show ¬(sl + (i + 1) ≤ idx ∧ idx < sl + (i + 1) + rest.length) by omega),
        if_neg (show ¬(kl % 8 ≠ 0 ∧ 0 < sl ∧ sl + i ≤ idx + 1
          ∧ idx + 1 < sl + i + (rest.length + 1)) by omega),
        if_neg (show ¬(sl + i ≤ idx ∧ idx < sl + i + (rest.length + 1)) by omega)]
      simp
    · rw [if_neg (show ¬(sl + i = idx) by omega),
        if_neg (show ¬(kl % 8 ≠ 0 ∧ 0 < sl ∧ sl + (i + 1) ≤ idx + 1
          ∧ idx + 1 < sl + (i + 1) + rest.length) by omega),
        if_neg (show ¬(sl + (i + 1) ≤ idx ∧ idx < sl + (i + 1) + rest.length) by omega),
        if_neg (show ¬(sl + i ≤ idx ∧ idx < sl + i + (rest.length + 1)) by omega)]
      by_cases hc : kl % 8 ≠ 0 ∧ 0 < sl
      · rw [if_pos ⟨hc.1, hc.2, by omega⟩,
          if_pos (show kl % 8 ≠ 0 ∧ 0 < sl ∧ sl + i ≤ idx + 1
            ∧ idx + 1 < sl + i + (rest.length + 1) from ⟨hc.1, hc.2, by omega, by omega⟩)]
        have h0 : idx + 1 - sl - i = 0 := by omega
        rw [h0]
        simp
      · rw [if_neg (fun h => hc ⟨h.1, h.2.1⟩), if_neg (fun h => hc ⟨h.1, h.2.1⟩)]
        simp
    · rw [if_neg (show ¬(kl % 8 ≠ 0 ∧ 0 < sl ∧ sl + i = idx + 1) by omega)]
      by_cases hin : idx < sl + i + (rest.length + 1)
      · have hP : (if kl % 8 ≠ 0 ∧ 0 < sl ∧ sl + (i + 1) ≤ idx + 1
              ∧ idx + 1 < sl + (i + 1) + rest.length
            then rest.getD (idx + 1 - sl - (i + 1)) 0 >>> (kl % 8) else 0)
            = (if kl % 8 ≠ 0 ∧ 0 < sl ∧ sl + i ≤ idx + 1
              ∧ idx + 1 < sl + i + (rest.length + 1)
            then (b :: rest).getD (idx + 1 - sl - i) 0 >>> (kl % 8) else 0) := by
          by_cases hc : kl % 8 ≠ 0 ∧ 0 < sl
          · by_cases hr : idx + 1 < sl + i + 1 + rest.length
            · rw [if_pos ⟨hc.1, hc.2, by omega, by omega⟩,
                if_pos ⟨hc.1, hc.2, by omega, by omega⟩]
              have h1 : idx + 1 - sl - i = (idx + 1 - sl - (i + 1)) + 1 := by omega
              rw [h1]
              simp
            · rw [if_neg (show ¬(kl % 8 ≠ 0 ∧ 0 < sl ∧ sl + (i + 1) ≤ idx + 1
                  ∧ idx + 1 < sl + (i + 1) + rest.length) by omega),
                if_neg (show ¬(kl % 8 ≠ 0 ∧ 0 < sl ∧ sl + i ≤ idx + 1
                  ∧ idx + 1 < sl + i + (rest.length + 1)) by omega)]
          · rw [if_neg (fun h => hc ⟨h.1, h.2.1⟩), if_neg (fun h => hc ⟨h.1, h.2.1⟩)]
        rw [hP]
        by_cases he : sl + i = idx
        · rw [if_pos he,
            if_neg (show ¬(sl + (i + 1) ≤ idx ∧ idx < sl + (i + 1) + rest.length) by omega),
            if_pos (show sl + i ≤ idx ∧ idx < sl + i + (rest.length + 1) from ⟨by omega, by omega⟩)]
          have h0 : idx - sl - i = 0 := by omega
          rw [h0]
          simp only [List.getD_cons_zero, Nat.or_zero]
          generalize List.getD acc idx 0 = A
          generalize (if kl % 8 ≠ 0 ∧ 0 < sl ∧ sl + i ≤ idx + 1
            ∧ idx + 1 < sl + i + (rest.length + 1)
            then (b :: rest).getD (idx + 1 - sl - i) 0 >>> (kl % 8) else 0) = P
          generalize b <<< ((8 - kl % 8) % 8) % 256 = N
          rw [Nat.or_assoc A N P, Nat.or_comm N P, ← Nat.or_assoc A P N]
        · rw [if_neg he]
          have hN : (if sl + (i + 1) ≤ idx ∧ idx < sl + (i + 1) + rest.length
              then rest.getD (idx - sl - (i + 1)) 0 <<< ((8 - kl % 8) % 8) % 256 else 0)
              = (if sl + i ≤ idx ∧ idx < sl + i + (rest.length + 1)
              then (b :: rest).getD (idx - sl - i) 0 <<< ((8 - kl % 8) % 8) % 256 else 0) := by
            by_cases hr : idx < sl + i + 1 + rest.length
            · rw [if_pos ⟨by omega, by omega⟩, if_pos ⟨by omega, by omega⟩]
              have h1 : idx - sl - i = (idx - sl - (i + 1)) + 1 := by omega
              rw [h1]
              simp
            · rw [if_neg (show ¬(sl + (i + 1) ≤ idx
                  ∧ idx < sl + (i + 1) + rest.length) by omega),
                if_neg (show ¬(sl + i ≤ idx ∧ idx < sl + i + (rest.length + 1)) by omega)]
          rw [hN]
          simp
      · rw [if_neg (show ¬(sl + i = idx) by omega),
          if_neg (show ¬(kl % 8 ≠ 0 ∧ 0 < sl ∧ sl + (i + 1) ≤ idx + 1
            ∧ idx + 1 < sl + (i + 1) + rest.length) by omega),
          if_neg (show ¬(sl + (i + 1) ≤ idx ∧ idx < sl + (i + 1) + rest.length) by omega),
          if_neg (show ¬(kl % 8 ≠ 0 ∧ 0 < sl ∧ sl + i ≤ idx + 1
            ∧ idx + 1 < sl + i + (rest.length + 1)) by omega),
          if_neg (show ¬(sl + i ≤ idx ∧ idx < sl + i + (rest.length + 1)) by omega)]
        simp

theorem append_replicate_getD (k : Key) (L j : Nat) :
    (k ++ List.replicate L 0).getD j 0 = if j < k.length then k.getD j 0 else 0 := by
  rw [List.getD_eq_getElem?_getD, List.getElem?_append]
  by_cases h : j < k.length
  · simp [h, List.getD_eq_getElem?_getD]
  · simp only [if_neg h]
    rcases hr : (List.replicate L (0 : Nat))[j - k.length]? with _ | v
    · simp [h]
    · have := List.eq_of_mem_replicate (List.getElem?_mem hr)
      simp [h, this]

theorem merge_length (k : Key) (kl : Nat) (k2 : Key) (k2l : Nat)
    (hk : k.length ≤ Depth.to_bytes (kl + k2l)) :
    (Key.merge k kl k2 k2l).length = Depth.to_bytes (kl + k2l) := by
  unfold Key.merge
  rw [mergeLoop_length]
  simp only [List.length_append, List.length_replicate]
  omega

theorem merge_getD (k : Key) (kl : Nat) (k2 : Key) (k2l : Nat) (idx : Nat)
    (hk : k.length ≤ Depth.to_bytes (kl + k2l))
    (hidx : idx < Depth.to_bytes (kl + k2l)) :
    (Key.merge k kl k2 k2l).getD idx 0 =
      (if idx < k.length then k.getD idx 0 else 0)
      ||| (if kl % 8 ≠ 0 ∧ 0 < k.length ∧ k.length ≤ idx + 1
            ∧ idx + 1 < k.length + k2.length
           then k2.getD (idx + 1 - k.length) 0 >>> (kl % 8) else 0)
      ||| (if k.length ≤ idx ∧ idx < k.length + k2.length
           then k2.getD (idx - k.length) 0 <<< ((8 - kl % 8) % 8) % 256 else 0) := by
  unfold Key.merge
  rw [mergeLoop_getD _ _ _ _ _ _ (by
    simp only [List.length_append, List.length_replicate]
    omega)]
  rw [append_replicate_getD]
  simp only [Nat.add_zero, Nat.sub_zero]

/-- Bits below the declared first-key bit length are untouched by `merge`. -/
theorem merge_bit_low (k : Key) (kl : Nat) (k2 : Key) (k2l : Nat)
    (hk2 : ∀ idx, k2.getD idx 0 < 256)
    (hkl : kl ≤ 8 * k.length)
    (hfit : k.length ≤ Depth.to_bytes (kl + k2l))
    (i : Nat) (hi : i < kl) :
    (Key.merge k kl k2 k2l).get_bit i = Key.get_bit k i := by
  have hidx : i / 8 < Depth.to_bytes (kl + k2l) := by
    rw [lt_to_bytes]
    omega
  rw [get_bit_testBit, get_bit_testBit, merge_getD _ _ _ _ _ hfit hidx]
  have hbase : i / 8 < k.length := by omega
  rw [if_pos hbase, Nat.testBit_or, Nat.testBit_or,
    if_neg (show ¬(k.length ≤ i / 8 ∧ i / 8 < k.length + k2.length) by omega)]
  by_cases hP : kl % 8 ≠ 0 ∧ 0 < k.length ∧ k.length ≤ i / 8 + 1
      ∧ i / 8 + 1 < k.length + k2.length
  · rw [if_pos hP]
    have hb : i % 8 < kl % 8 := by omega
    rw [Nat.testBit_shiftRight, testBit_ge_eight (hk2 _) (by omega)]
    simp [Nat.zero_testBit]
  · rw [if_neg hP]
    simp [Nat.zero_testBit]

/-- Bits at and above the declared first-key bit length read the second key,
provided the first key's buffer is exactly `to_bytes kl` bytes with masked
trailing bits. -/
theorem merge_bit_high (k : Key) (kl : Nat) (k2 : Key) (k2l : Nat)
    (hk2 : ∀ idx, k2.getD idx 0 < 256)
    (hlen : k.length = Depth.to_bytes kl)
    (hmask : ∀ j, kl ≤ j → j < 8 * k.length → Key.get_bit k j = false)
    (hk2l : k2l ≤ 8 * k2.length)
    (i : Nat) (hi : i < k2l) :
    (Key.merge k kl k2 k2l).get_bit (kl + i) = Key.get_bit k2 i := by
  have hfit : k.length ≤ Depth.to_bytes (kl + k2l) := by
    rw [hlen]
    exact to_bytes_mono (by omega)
  have hidx : (kl + i) / 8 < Depth.to_bytes (kl + k2l) := by
    rw [lt_to_bytes]
    omega
  rw [get_bit_testBit, get_bit_testBit, merge_getD _ _ _ _ _ hfit hidx]
  have h256 : (256 : Nat) = 2 ^ 8 := by norm_num
  by_cases hb : kl % 8 = 0
  · have hklen : k.length = kl / 8 := by
      rw [hlen]
      unfold Depth.to_bytes
      simp [hb]
    have e1 : (kl + i) / 8 = k.length + i / 8 := by omega
    have e2 : (kl + i) % 8 = i % 8 := by omega
    rw [if_neg (show ¬((kl + i) / 8 < k.length) by omega),
      if_neg (show ¬(kl % 8 ≠ 0 ∧ 0 < k.length ∧ k.length ≤ (kl + i) / 8 + 1
        ∧ (kl + i) / 8 + 1 < k.length + k2.length) by omega),
      if_pos (show k.length ≤ (kl + i) / 8
        ∧ (kl + i) / 8 < k.length + k2.length by omega)]
    have e3 : (kl + i) / 8 - k.length = i / 8 := by omega
    rw [e2, e3, hb]
    simp only [Nat.sub_zero, Nat.mod_self, Nat.shiftLeft_zero]
    rw [Nat.mod_eq_of_lt (hk2 _)]
    simp [Nat.zero_testBit]
  · have hklen : k.length = kl / 8 + 1 := by
      rw [hlen]
      unfold Depth.to_bytes
      simp [hb]
    by_cases ht : kl % 8 + i % 8 < 8
    · have e1 : (kl + i) / 8 = kl / 8 + i / 8 := by omega
      have e2 : (kl + i) % 8 = kl % 8 + i % 8 := by omega
      rw [Nat.testBit_or, Nat.testBit_or,
        if_pos (show kl % 8 ≠ 0 ∧ 0 < k.length ∧ k.length ≤ (kl + i) / 8 + 1
          ∧ (kl + i) / 8 + 1 < k.length + k2.length by
            refine ⟨hb, by omega, by omega, by omega⟩)]
      have eP : (kl + i) / 8 + 1 - k.length = i / 8 := by omega
      rw [eP, Nat.testBit_shiftRight]
      have eP2 : kl % 8 + (7 - (kl + i) % 8) = 7 - i % 8 := by omega
      rw [eP2]
      have hNbit : (if k.length ≤ (kl + i) / 8
            ∧ (kl + i) / 8 < k.length + k2.length
          then k2.getD ((kl + i) / 8 - k.length) 0 <<< ((8 - kl % 8) % 8) % 256
          else 0).testBit (7 - (kl + i) % 8) = false := by
        by_cases hN : k.length ≤ (kl + i) / 8 ∧ (kl + i) / 8 < k.length + k2.length
        · rw [if_pos hN, h256, Nat.testBit_mod_two_pow, Nat.testBit_shiftLeft]
          have : ¬(7 - (kl + i) % 8 ≥ (8 - kl % 8) % 8) := by omega
          simp [this]
        · rw [if_neg hN]
          simp [Nat.zero_testBit]
      rw [hNbit]
      by_cases hj0 : i / 8 = 0
      · rw [if_pos (show (kl + i) / 8 < k.length by omega)]
        have hm := hmask (kl + i % 8) (by omega) (by omega)
        rw [get_bit_testBit] at hm
        have em1 : (kl + i % 8) / 8 = (kl + i) / 8 := by omega
        have em2 : (kl + i % 8) % 8 = (kl + i) % 8 := by omega
        rw [em1, em2] at hm
        rw [hm]
        simp
      · rw [if_neg (show ¬((kl + i) / 8 < k.length) by omega)]
        simp [Nat.zero_testBit]
    · have e1 : (kl + i) / 8 = kl / 8 + i / 8 + 1 := by omega
      have e2 : (kl + i) % 8 = kl % 8 + i % 8 - 8 := by omega
      rw [Nat.testBit_or, Nat.testBit_or,
        if_neg (show ¬((kl + i) / 8 < k.length) by omega),
        if_pos (show k.length ≤ (kl + i) / 8
          ∧ (kl + i) / 8 < k.length + k2.length by omega)]
      have hPbit : (if kl % 8 ≠ 0 ∧ 0 < k.length ∧ k.length ≤ (kl + i) / 8 + 1
            ∧ (kl + i) / 8 + 1 < k.length + k2.length
          then k2.getD ((kl + i) / 8 + 1 - k.length) 0 >>> (kl % 8)
          else 0).testBit (7 - (kl + i) % 8) = false := by
        by_cases hP : kl % 8 ≠ 0 ∧ 0 < k.length ∧ k.length ≤ (kl + i) / 8 + 1
            ∧ (kl + i) / 8 + 1 < k.length + k2.length
        · rw [if_pos hP, Nat.testBit_shiftRight,
            testBit_ge_eight (hk2 _) (by omega)]
        · rw [if_neg hP]
          simp [Nat.zero_testBit]
      rw [hPbit]
      have eN : (kl + i) / 8 - k.length = i / 8 := by omega
      rw [eN, h256, Nat.testBit_mod_two_pow, Nat.testBit_shiftLeft]
      have d1 : (7 - (kl + i) % 8 < 8) = True := by simp [Nat.zero_testBit]; omega
      have hc1 : 7 - (kl + i) % 8 < 8 := by omega
      have hc2 : 7 - (kl + i) % 8 ≥ (8 - kl % 8) % 8 := by omega
      have eN2 : 7 - (kl + i) % 8 - (8 - kl % 8) % 8 = 7 - i % 8 := by omega
      rw [eN2]
      simp [hc1, hc2, Nat.zero_testBit]

theorem getD_eq_zero_of_le (l : Key) (j : Nat) (h : l.length ≤ j) :
    l.getD j 0 = 0 := by
  rw [List.getD_eq_getElem?_getD, List.getElem?_eq_none h]
  rfl

theorem or_lt_256 (a b : Nat) (ha : a < 256) (hb : b < 256) : a ||| b < 256 := by
  have h := lt_two_pow_of_testBit_high (a ||| b) 8 (fun j hj => by
    rw [Nat.testBit_or, testBit_ge_eight ha hj, testBit_ge_eight hb hj]
    rfl)
  simpa using h

theorem split_is_some (k : Key) (m n : Nat) (h1 : m ≤ n)
    (h2 : Depth.to_bytes m ≤ k.length) :
    ∃ ps, Key.split k m n = some ps := by
  unfold Key.split
  rw [if_neg (by omega)]
  dsimp only
  rw [if_neg (by omega)]
  exact ⟨_, rfl⟩

theorem testBit_255 (x : Nat) (hx : x < 8) : (255 : Nat).testBit x = true := by
  interval_cases x <;> decide

/-- Full characterization of `Key.split`: byte lengths, byte bounds, the
prefix agrees with `k` below the split point and is masked above it, and the
suffix carries the bits from the split point on. -/
theorem split_spec (k : Key) (m n : Nat) (p s : Key)
    (hk : ∀ idx, k.getD idx 0 < 256)
    (h1 : m ≤ n) (h3 : n ≤ 8 * k.length)
    (hsp : Key.split k m n = some (p, s)) :
    p.length = Depth.to_bytes m
    ∧ s.length = Depth.to_bytes (n - m)
    ∧ (∀ idx, p.getD idx 0 < 256)
    ∧ (∀ idx, s.getD idx 0 < 256)
    ∧ (∀ i, i < m → p.get_bit i = Key.get_bit k i)
    ∧ (∀ i, m ≤ i → i < 8 * p.length → p.get_bit i = false)
    ∧ (∀ i, i < n - m → s.get_bit i = Key.get_bit k (m + i)) := by
  have h2 : Depth.to_bytes m ≤ k.length := by
    rw [to_bytes_le]
    omega
  unfold Key.split at hsp
  rw [if_neg (by omega)] at hsp
  dsimp only at hsp
  rw [if_neg (by omega)] at hsp
  obtain ⟨rfl, rfl⟩ := Prod.mk.inj (Option.some.inj hsp)
  have h256 : (256 : Nat) = 2 ^ 8 := by norm_num
  have hPgetD : ∀ j,
      (if m % 8 ≠ 0 then
        (k.take (Depth.to_bytes m)).set (Depth.to_bytes m - 1)
          ((k.take (Depth.to_bytes m)).getD (Depth.to_bytes m - 1) 0 &&&
            (0xff <<< (8 - m % 8)) % 256)
       else k.take (Depth.to_bytes m)).getD j 0 =
      if j < Depth.to_bytes m then
        (if m % 8 ≠ 0 ∧ j = Depth.to_bytes m - 1 then
          k.getD j 0 &&& (0xff <<< (8 - m % 8)) % 256
         else k.getD j 0)
      else 0 := by
    intro j
    by_cases hm8 : m % 8 = 0
    · rw [if_neg (by omega)]
      by_cases hj : j < Depth.to_bytes m
      · rw [if_pos hj, take_getD _ _ _ hj h2, if_neg (by omega)]
      · rw [if_neg hj, getD_eq_zero_of_le]
        simp only [List.length_take]
        omega
    · rw [if_pos hm8]
      have hpl : 0 < Depth.to_bytes m := by
        unfold Depth.to_bytes
        split <;> omega
      by_cases hj : j < Depth.to_bytes m
      · rw [if_pos hj]
        by_cases hlast : j = Depth.to_bytes m - 1
        · subst hlast
          rw [set_getD_same _ _ _ _ rfl (by
              simp only [List.length_take]
              omega),
            if_pos ⟨hm8, rfl⟩, take_getD _ _ _ (by omega) h2]
        · rw [set_getD_other _ _ _ _ (by omega), take_getD _ _ _ hj h2,
            if_neg (by tauto)]
      · rw [if_neg hj, getD_eq_zero_of_le]
        simp only [List.length_set, List.length_take]
        omega
  have hSgetD : ∀ j, j < Depth.to_bytes (n - m) →
      ((List.range (Depth.to_bytes (n - m))).map (fun i =>
        if m % 8 ≠ 0 ∧ i + m / 8 + 1 ≠ k.length then
          k.getD (i + m / 8) 0 <<< (m % 8) % 256 |||
            k.getD (i + m / 8 + 1) 0 >>> (8 - m % 8)
        else k.getD (i + m / 8) 0 <<< (m % 8) % 256)).getD j 0 =
      (if m % 8 ≠ 0 ∧ j + m / 8 + 1 ≠ k.length then
        k.getD (j + m / 8) 0 <<< (m % 8) % 256 |||
          k.getD (j + m / 8 + 1) 0 >>> (8 - m % 8)
       else k.getD (j + m / 8) 0 <<< (m % 8) % 256) := by
    intro j hj
    rw [range_map_getD _ _ _ hj]
  refine ⟨?_, ?_, ?_, ?_, ?_, ?_, ?_⟩
  · by_cases hm8 : m % 8 = 0
    · rw [if_neg (by omega)]
      simp only [List.length_take]
      omega
    · rw [if_pos hm8]
      simp only [List.length_set, List.length_take]
      omega
  · simp
  · intro idx
    rw [hPgetD]
    by_cases hj : idx < Depth.to_bytes m
    · rw [if_pos hj]
      by_cases hlast : m % 8 ≠ 0 ∧ idx = Depth.to_bytes m - 1
      · rw [if_pos hlast]
        exact lt_of_le_of_lt (Nat.and_le_left) (hk idx)
      · rw [if_neg hlast]
        exact hk idx
    · rw [if_neg hj]
      omega
  · intro idx
    by_cases hj : idx < Depth.to_bytes (n - m)
    · rw [hSgetD idx hj]
      have hb1 : k.getD (idx + m / 8) 0 <<< (m % 8) % 256 < 256 := by
        omega
      by_cases hc : m % 8 ≠ 0 ∧ idx + m / 8 + 1 ≠ k.length
      · rw [if_pos hc]
        refine or_lt_256 _ _ hb1 ?_
        calc k.getD (idx + m / 8 + 1) 0 >>> (8 - m % 8)
            = k.getD (idx + m / 8 + 1) 0 / 2 ^ (8 - m % 8) :=
              Nat.shiftRight_eq_div_pow _ _
        _ ≤ k.getD (idx + m / 8 + 1) 0 := Nat.div_le_self _ _
        _ < 256 := hk _
      · rw [if_neg hc]
        exact hb1
    · rw [getD_eq_zero_of_le]
      · omega
      · simp only [List.length_map, List.length_range]
        omega
  · intro i hi
    rw [get_bit_testBit, get_bit_testBit, hPgetD]
    have hj : i / 8 < Depth.to_bytes m := by
      rw [lt_to_bytes]
      omega
    rw [if_pos hj]
    by_cases hlast : m % 8 ≠ 0 ∧ i / 8 = Depth.to_bytes m - 1
    · rw [if_pos hlast]
      have hpl : Depth.to_bytes m = m / 8 + 1 := by
        unfold Depth.to_bytes
        simp [hlast.1]
      have hi8 : i % 8 < m % 8 := by omega
      rw [Nat.testBit_and, h256, Nat.testBit_mod_two_pow, Nat.testBit_shiftLeft]
      have hd1 : 7 - i % 8 < 8 := by omega
      have hd2 : 7 - i % 8 ≥ 8 - m % 8 := by omega
      rw [testBit_255 _ (by omega)]
      simp [hd1, hd2]
    · rw [if_neg hlast]
  · intro i hmi hi8
    have hm8 : m % 8 ≠ 0 := by
      intro hm0
      have hpl8 : 8 * Depth.to_bytes m = m := by
        unfold Depth.to_bytes
        simp [hm0]
        omega
      by_cases hmm : m % 8 = 0
      all_goals
        rw [show (if m % 8 ≠ 0 then
            (k.take (Depth.to_bytes m)).set (Depth.to_bytes m - 1)
              ((k.take (Depth.to_bytes m)).getD (Depth.to_bytes m - 1) 0 &&&
                (0xff <<< (8 - m % 8)) % 256)
           else k.take (Depth.to_bytes m)).length = Depth.to_bytes m from by
          by_cases hx : m % 8 = 0
          · rw [if_neg (by omega)]
            simp only [List.length_take]
            omega
          · rw [if_pos hx]
            simp only [List.length_set, List.length_take]
            omega] at hi8
      all_goals omega
    have hlen : (if m % 8 ≠ 0 then
        (k.take (Depth.to_bytes m)).set (Depth.to_bytes m - 1)
          ((k.take (Depth.to_bytes m)).getD (Depth.to_bytes m - 1) 0 &&&
            (0xff <<< (8 - m % 8)) % 256)
       else k.take (Depth.to_bytes m)).length = Depth.to_bytes m := by
      rw [if_pos hm8]
      simp only [List.length_set, List.length_take]
      omega
    rw [hlen] at hi8
    have hpl : Depth.to_bytes m = m / 8 + 1 := by
      unfold Depth.to_bytes
      simp [hm8]
    rw [get_bit_testBit, hPgetD]
    have hj : i / 8 < Depth.to_bytes m := by omega
    have hjl : i / 8 = Depth.to_bytes m - 1 := by omega
    rw [if_pos hj, if_pos ⟨hm8, hjl⟩]
    rw [Nat.testBit_and, h256, Nat.testBit_mod_two_pow, Nat.testBit_shiftLeft]
    have hd2 : ¬(7 - i % 8 ≥ 8 - m % 8) := by omega
    simp [hd2]
  · intro i hi
    rw [get_bit_testBit, get_bit_testBit]
    have hj : i / 8 < Depth.to_bytes (n - m) := by
      rw [lt_to_bytes]
      omega
    rw [hSgetD _ hj]
    have hin : i / 8 + m / 8 < k.length ∨ (m % 8 = 0 ∧ i / 8 + m / 8 < k.length) := by
      left
      omega
    by_cases hm8 : m % 8 = 0
    · rw [if_neg (by tauto)]
      have e1 : (m + i) / 8 = i / 8 + m / 8 := by omega
      have e2 : (m + i) % 8 = i % 8 := by omega
      rw [e1, e2, h256, Nat.testBit_mod_two_pow, Nat.testBit_shiftLeft, hm8]
      have hd1 : 7 - i % 8 < 8 := by omega
      have hd2 : 7 - i % 8 ≥ 0 := by omega
      simp [hd1]
    · by_cases ht : m % 8 + i % 8 < 8
      · have e1 : (m + i) / 8 = i / 8 + m / 8 := by omega
        have e2 : (m + i) % 8 = m % 8 + i % 8 := by omega
        by_cases hg : i / 8 + m / 8 + 1 ≠ k.length
        · rw [if_pos ⟨hm8, hg⟩, Nat.testBit_or, h256, Nat.testBit_mod_two_pow,
            Nat.testBit_shiftLeft, Nat.testBit_shiftRight]
          have hd1 : 7 - i % 8 < 8 := by omega
          have hd2 : 7 - i % 8 ≥ m % 8 := by omega
          have e3 : 7 - i % 8 - m % 8 = 7 - (m + i) % 8 := by omega
          have e4 : 8 - m % 8 + (7 - i % 8) ≥ 8 := by omega
          rw [e3, testBit_ge_eight (hk _) e4, e1]
          simp [hd1, hd2]
        · rw [if_neg (by tauto), h256, Nat.testBit_mod_two_pow,
            Nat.testBit_shiftLeft]
          have hd1 : 7 - i % 8 < 8 := by omega
          have hd2 : 7 - i % 8 ≥ m % 8 := by omega
          have e3 : 7 - i % 8 - m % 8 = 7 - (m + i) % 8 := by omega
          rw [e3, e1]
          simp [hd1, hd2]
      · have e1 : (m + i) / 8 = i / 8 + m / 8 + 1 := by omega
        have e2 : (m + i) % 8 = m % 8 + i % 8 - 8 := by omega
        have hg : i / 8 + m / 8 + 1 ≠ k.length := by
          intro hgg
          have : (m + i) / 8 < k.length := by
            have : m + i < 8 * k.length := by omega
            omega
          omega
        rw [if_pos ⟨hm8, hg⟩, Nat.testBit_or, h256, Nat.testBit_mod_two_pow,
          Nat.testBit_shiftLeft, Nat.testBit_shiftRight]
        have hd1 : ¬(7 - i % 8 ≥ m % 8) := by omega
        have e3 : 8 - m % 8 + (7 - i % 8) = 7 - (m + i) % 8 := by omega
        rw [e3, e1]
        simp [hd1]

/-- Claim C6: for `n ≤ 8·len(k)` and `m ≤ n`, splitting at `m` and merging
the parts back reproduces every bit of `k` below `n`. -/
theorem C6_split_merge_inverse (k : Key) (m n : Nat)
    (hk : ∀ b ∈ k, b < 256) (h1 : m ≤ n) (h3 : n ≤ 8 * k.length) :
    ∃ p s, Key.split k m n = some (p, s)
      ∧ ∀ i, i < n →
          (Key.merge p m s (n - m)).get_bit i = Key.get_bit k i := by
  have hk' : ∀ idx, k.getD idx 0 < 256 := getD_lt_256 k hk
  have h2 : Depth.to_bytes m ≤ k.length := by
    rw [to_bytes_le]
    omega
  obtain ⟨⟨p, s⟩, hsp⟩ := split_is_some k m n h1 h2
  obtain ⟨hplen, hslen, hp256, hs256, hpbits, hpmask, hsbits⟩ :=
    split_spec k m n p s hk' h1 h3 hsp
  refine ⟨p, s, hsp, fun i hi => ?_⟩
  by_cases him : i < m
  · rw [merge_bit_low p m s (n - m) hs256
      (by rw [hplen]; exact (to_bytes_le _ _).mp le_rfl)
      (by rw [hplen]; exact to_bytes_mono (by omega)) i him]
    exact hpbits i him
  · have hi' : i - m < n - m := by omega
    have hh := merge_bit_high p m s (n - m) hs256 hplen hpmask
      (by rw [hslen]; exact (to_bytes_le _ _).mp le_rfl) (i - m) hi'
    rw [show m + (i - m) = i by omega] at hh
    rw [hh, hsbits (i - m) hi', show m + (i - m) = i by omega]

/-- Witness for C6 at the spec's scenario S5: `split([0xF0, 0x0F], 3, 16)`
then merge reproduces the 16 bits. -/
theorem C6_split_merge_inverse_witness :
    ∃ p s, Key.split [0xF0, 0x0F] 3 16 = some (p, s)
      ∧ ∀ i, i < 16 →
          (Key.merge p 3 s (16 - 3)).get_bit i = Key.get_bit [0xF0, 0x0F] i :=
  C6_split_merge_inverse [0xF0, 0x0F] 3 16 (by decide) (by decide) (by decide)

/-- Counterexample to claim C7 as stated: with `k = [0x00, 0x00]` (buffer
longer than `ceil(1/8) = 1` byte, all bits masked), `n = 1`,
`k2 = [0x80]`, `n2 = 8`, the claim demands bit 1 of the result to be `k2`'s
bit 0, i.e. `true`; but the source places `k2` starting at byte
`k.len() = 2`, so the result is `[0x00, 0x40]` and bit 1 is `false` — the
byte-buffer length of `k`, not the declared length `n`, determines the
placement. -/
theorem C7_merge_placement_counterexample :
    (∀ i, i < 16 → 1 ≤ i → Key.get_bit [0x00, 0x00] i = false)
    ∧ Key.merge [0x00, 0x00] 1 [0x80] 8 = [0x00, 0x40]
    ∧ Key.get_bit (Key.merge [0x00, 0x00] 1 [0x80] 8) 1 = false
    ∧ Key.get_bit [0x80] 0 = true := by
  exact ⟨by decide, by decide, by decide, by decide⟩

/-- Claim C7 (amended): when `k`'s buffer is exactly `ceil(n/8)` bytes (so
that the byte-buffer length and the declared length agree on the placement
point) and `k2`'s buffer is exactly `ceil(n2/8)` bytes, with trailing bits
masked, `merge(k, n, k2, n2)` has `ceil((n+n2)/8)` bytes and bit `i` equals
`k`'s bit `i` for `i < n` and `k2`'s bit `i − n` for `n ≤ i < n + n2`. -/
theorem C7_merge_bits_amended (k : Key) (kl : Nat) (k2 : Key) (k2l : Nat)
    (hk : ∀ b ∈ k, b < 256) (hk2 : ∀ b ∈ k2, b < 256)
    (hklen : k.length = Depth.to_bytes kl)
    (hk2len : k2.length = Depth.to_bytes k2l)
    (hmask : ∀ i, kl ≤ i → i < 8 * k.length → Key.get_bit k i = false) :
    (Key.merge k kl k2 k2l).length = Depth.to_bytes (kl + k2l)
    ∧ (∀ i, i < kl + k2l →
        (Key.merge k kl k2 k2l).get_bit i =
          if i < kl then Key.get_bit k i else Key.get_bit k2 (i - kl)) := by
  have hk2' : ∀ idx, k2.getD idx 0 < 256 := getD_lt_256 k2 hk2
  have hfit : k.length ≤ Depth.to_bytes (kl + k2l) := by
    rw [hklen]
    exact to_bytes_mono (by omega)
  refine ⟨merge_length _ _ _ _ hfit, fun i hi => ?_⟩
  by_cases him : i < kl
  · rw [if_pos him, merge_bit_low _ _ _ _ hk2'
      (by rw [hklen]; exact (to_bytes_le _ _).mp le_rfl) hfit i him]
  · rw [if_neg him]
    have hh := merge_bit_high k kl k2 k2l hk2' hklen hmask
      (by rw [hk2len]; exact (to_bytes_le _ _).mp le_rfl) (i - kl) (by omega)
    rw [show kl + (i - kl) = i by omega] at hh
    exact hh

/-- Witness for the amended C7 at the spec's S5 pieces: merging `[0xE0]`
(3 bits) with `[0x80, 0x78]` (13 bits). -/
theorem C7_merge_bits_amended_witness :
    (Key.merge [0xE0] 3 [0x80, 0x78] 13).length = Depth.to_bytes (3 + 13)
    ∧ (∀ i, i < 3 + 13 →
        (Key.merge [0xE0] 3 [0x80, 0x78] 13).get_bit i =
          if i < 3 then Key.get_bit [0xE0] i
          else Key.get_bit [0x80, 0x78] (i - 3)) :=
  C7_merge_bits_amended [0xE0] 3 [0x80, 0x78] 13 (by decide) (by decide)
    (by decide) (by decide)
    (fun i h1 h2 => by
      norm_num at h2
      interval_cases i <;> decide)

theorem leadingZeros8_ge (x r : Nat) (hr : r ≤ 8) (hx : x < 2 ^ (8 - r)) :
    r ≤ leadingZeros8 x := by
  have hlow : leadingZeros8 x = 8 ∨
      (leadingZeros8 x ≤ 7 ∧ 2 ^ (7 - leadingZeros8 x) ≤ x) := by
    unfold leadingZeros8
    split_ifs <;> norm_num <;> omega
  rcases hlow with h8 | ⟨h7, hpow⟩
  · omega
  · by_contra hcon
    push_neg at hcon
    have hmono : 2 ^ (8 - r) ≤ 2 ^ (7 - leadingZeros8 x) :=
      Nat.pow_le_pow_right (by omega) (by omega)
    omega

theorem scanEq_spec (k k2 : Key) (fuel : Nat) : ∀ i,
    i ≤ Key.scanEq k k2 i fuel
    ∧ Key.scanEq k k2 i fuel ≤ i + fuel
    ∧ (∀ t, i ≤ t → t < Key.scanEq k k2 i fuel → k.getD t 0 = k2.getD t 0)
    ∧ (Key.scanEq k k2 i fuel < i + fuel →
        k.getD (Key.scanEq k k2 i fuel) 0 ≠ k2.getD (Key.scanEq k k2 i fuel) 0) := by
  induction fuel with
  | zero =>
    intro i
    unfold Key.scanEq
    exact ⟨le_rfl, by omega, fun t ht1 ht2 => by omega, fun h => by omega⟩
  | succ f ih =>
    intro i
    unfold Key.scanEq
    by_cases h : k.getD i 0 = k2.getD i 0
    · rw [if_pos h]
      obtain ⟨ih1, ih2, ih3, ih4⟩ := ih (i + 1)
      refine ⟨by omega, by omega, fun t ht1 ht2 => ?_, fun hlt => ih4 (by omega)⟩
      by_cases hti : t = i
      · subst hti
        exact h
      · exact ih3 t (by omega) ht2
    · rw [if_neg h]
      exact ⟨le_rfl, by omega, fun t ht1 ht2 => by omega, fun _ => h⟩

/-- The byte scan of `common_prefix_len` runs to the end on two equal
buffers. -/
theorem scanEq_same (k : Key) : ∀ i fuel, Key.scanEq k k i fuel = i + fuel := by
  intro i fuel
  induction fuel generalizing i with
  | zero =>
    unfold Key.scanEq
    omega
  | succ f ih =>
    unfold Key.scanEq
    rw [if_pos rfl, ih]
    omega

/-- Counterexample to claim C8 as stated: on two equal 8192-byte buffers
with `n = n2 = 65529` (a valid `Depth`, with buffers of exactly
`ceil(n/8) = 8192` bytes and `k2` trivially starting with `k`), the byte
scan reaches `i = 8192` and the source's `(i * 8) as Depth` cast wraps
`65536` to `0`, so `common_prefix_len` returns `0`, not `n`. -/
theorem C8_common_prefix_len_counterexample :
    (∀ b ∈ List.replicate 8192 (0 : Nat), b < 256)
    ∧ (List.replicate 8192 (0 : Nat)).length = Depth.to_bytes 65529
    ∧ (∀ i, i < 65529 → Key.get_bit (List.replicate 8192 (0 : Nat)) i
        = Key.get_bit (List.replicate 8192 (0 : Nat)) i)
    ∧ Key.common_prefix_len (List.replicate 8192 (0 : Nat)) 65529
        (List.replicate 8192 (0 : Nat)) 65529 = 0 := by
  refine ⟨fun b hb => ?_, ?_, fun i _ => rfl, ?_⟩
  · rw [List.eq_of_mem_replicate hb]
    omega
  · rw [List.length_replicate]
    unfold Depth.to_bytes
    norm_num
  · unfold Key.common_prefix_len
    dsimp only
    rw [List.length_replicate, if_neg (show ¬(8192 < 8192) by omega),
      scanEq_same,
      if_neg (show ¬((0 + 8192 : Nat) ≠ 8192 ∧ (0 + 8192 : Nat) ≠ 8192) by omega)]
    norm_num

/-- Claim C8 (amended): `common_prefix_len` is capped at `min(n, n2)`
unconditionally; and it equals `n` whenever the first `n` bits of `k2`
agree with the `n` bits of `k` (buffers of exactly `ceil(n/8)` resp.
`ceil(n2/8)` bytes), provided additionally `n ≤ 65528` — so that
`8 * ceil(n/8) < 2^16` and the source's `(i * 8) as Depth` u16 cast cannot
wrap. -/
theorem C8_common_prefix_len_amended (k : Key) (n : Nat) (k2 : Key) (n2 : Nat)
    (hk : ∀ b ∈ k, b < 256) (hk2 : ∀ b ∈ k2, b < 256)
    (hklen : k.length = Depth.to_bytes n)
    (hk2len : k2.length = Depth.to_bytes n2) :
    Key.common_prefix_len k n k2 n2 ≤ min n n2
    ∧ (n ≤ 65528 → n ≤ n2 →
        (∀ i, i < n → Key.get_bit k2 i = Key.get_bit k i) →
        Key.common_prefix_len k n k2 n2 = n) := by
  have hk' : ∀ idx, k.getD idx 0 < 256 := getD_lt_256 k hk
  have hk2' : ∀ idx, k2.getD idx 0 < 256 := getD_lt_256 k2 hk2
  constructor
  · unfold Key.common_prefix_len
    dsimp only
    split_ifs <;> omega
  · intro hn16 hn hbits
    have hkk : k.length ≤ k2.length := by
      rw [hklen, hk2len]
      exact to_bytes_mono (by omega)
    have hklb : k.length ≤ 8191 := by
      rw [hklen]
      exact (to_bytes_le n 8191).mpr (by omega)
    have hmin : (if k2.length < k.length then k2.length else k.length)
        = k.length := by
      split <;> omega
    have hbyte : ∀ t, t < n / 8 → k.getD t 0 = k2.getD t 0 := by
      intro t ht
      refine byte_eq_of_testBit_lt8 _ _ (hk' t) (hk2' t) (fun j hj => ?_)
      have hb := hbits (8 * t + (7 - j)) (by omega)
      rw [get_bit_testBit, get_bit_testBit] at hb
      have e1 : (8 * t + (7 - j)) / 8 = t := by omega
      have e2 : 7 - (8 * t + (7 - j)) % 8 = j := by omega
      rw [e1, e2] at hb
      exact hb.symm
    unfold Key.common_prefix_len
    dsimp only
    rw [hmin]
    set jj := Key.scanEq k k2 0 k.length with hjjdef
    obtain ⟨hs1, hs2, hs3, hs4⟩ := scanEq_spec k k2 k.length 0
    rw [← hjjdef] at hs1 hs2 hs3 hs4
    have hmod : jj * 8 % 65536 = jj * 8 := by omega
    rw [hmod]
    have hco : k.length = (if n % 8 ≠ 0 then n / 8 + 1 else n / 8) := by
      rw [hklen]
      rfl
    by_cases hm8 : n % 8 = 0
    · have hkl : k.length = n / 8 := by
        simp [hm8] at hco
        exact hco
      have hjlow : n / 8 ≤ jj := by
        by_contra hcon
        push_neg at hcon
        exact (hs4 (by omega)) (hbyte jj (by omega))
      have hjeq : jj = k.length := by omega
      rw [if_neg (show ¬(jj ≠ k.length ∧ jj ≠ k2.length) from fun h => h.1 hjeq)]
      have hj8 : jj * 8 = n := by omega
      split_ifs <;> omega
    · have hkl : k.length = n / 8 + 1 := by
        simp [hm8] at hco
        exact hco
      have hjlow : n / 8 ≤ jj := by
        by_contra hcon
        push_neg at hcon
        exact (hs4 (by omega)) (hbyte jj (by omega))
      by_cases heq : jj = k.length
      · rw [if_neg (show ¬(jj ≠ k.length ∧ jj ≠ k2.length) from fun h => h.1 heq)]
        have hj8 : n ≤ jj * 8 := by omega
        split_ifs <;> omega
      · have hjeq : jj = n / 8 := by omega
        have hne2 : jj ≠ k2.length := by omega
        rw [if_pos (show jj ≠ k.length ∧ jj ≠ k2.length from ⟨heq, hne2⟩)]
        have hxor : k.getD jj 0 ^^^ k2.getD jj 0 < 2 ^ (8 - n % 8) := by
          refine lt_two_pow_of_testBit_high _ _ (fun j hj => ?_)
          rw [Nat.testBit_xor]
          by_cases hj8 : 8 ≤ j
          · rw [testBit_ge_eight (hk' _) hj8, testBit_ge_eight (hk2' _) hj8]
            rfl
          · have hb := hbits (8 * (n / 8) + (7 - j)) (by omega)
            rw [get_bit_testBit, get_bit_testBit] at hb
            have e1 : (8 * (n / 8) + (7 - j)) / 8 = n / 8 := by omega
            have e2 : 7 - (8 * (n / 8) + (7 - j)) % 8 = j := by omega
            rw [e1, e2] at hb
            rw [hjeq, hb]
            exact Bool.xor_self _
        have hlz := leadingZeros8_ge _ _ (show n % 8 ≤ 8 by omega) hxor
        have hpre : n ≤ jj * 8 + leadingZeros8 (k.getD jj 0 ^^^ k2.getD jj 0) := by
          omega
        split_ifs <;> omega

/-- Witness for the amended C8 at concrete inputs: `k = [0xA5]` with 8 bits
is a strict bit-prefix of `k2 = [0xA5, 0xFF]` with 16 bits. -/
theorem C8_common_prefix_len_amended_witness :
    Key.common_prefix_len [0xA5] 8 [0xA5, 0xFF] 16 ≤ min 8 16
    ∧ (8 ≤ 65528 → 8 ≤ 16 → (∀ i, i < 8 →
        Key.get_bit [0xA5, 0xFF] i = Key.get_bit [0xA5] i) →
        Key.common_prefix_len [0xA5] 8 [0xA5, 0xFF] 16 = 8) :=
  C8_common_prefix_len_amended [0xA5] 8 [0xA5, 0xFF] 16 (by decide) (by decide)
    (by decide) (by decide)
